import Mathlib

/-!
# Unique-key propagation and subquery decorrelation (package `plan`)

A shallow embedding of `plan/build_key_info.go` and `plan/decorrelate.go`.

* Go slices are Lean lists; a `for ... range` loop is a recursive function over
  the list it ranges over, with the loop variables as accumulators and `break`
  as an early return.
* An index expression that can fault at run time (`xs[i]` out of range) is an
  `Option`: `none` is the run-time fault.
* Pointers to columns are modelled by the column value; `Clone()` is therefore
  the identity on values.
* The mutable `Data` pointer of a correlated column lives in an explicit heap.
-/

namespace Tidb

/-! ## Column and Schema -/

/-- Case-insensitive string of package `model`: the original and the lower-cased form. -/
structure CIStr where
  O : String
  L : String
  deriving DecidableEq, Repr

/-- The `expression.Column` fields read by the two source files. -/
structure Column where
  FromID : String
  Position : Int
  ColName : CIStr
  deriving DecidableEq, Repr

/-- A key group: `[]*expression.Column`. -/
abbrev KeyInfo := List Column

/-- The `expression.Schema`: ordered columns plus the key groups found so far. -/
structure Schema where
  Columns : List Column
  Keys : List KeyInfo
  deriving DecidableEq, Repr

/-- Modelled from the spec: `Schema.Clone` is not under src/; a clone is a deep copy
("cloned, not aliased"), which is the same value. -/
def Schema.Clone (s : Schema) : Schema := { Columns := s.Columns, Keys := s.Keys }

/-- Modelled from the spec: the loop of `Schema.GetColumnIndex`, which is not under src/.
A column is looked up by identity (owner and ordinal position); the first match wins and
`-1` means that no column matches. `i` is the index of the head of the list. -/
def GetColumnIndexFrom (col : Column) : List Column → Nat → Int
  | [], _ => -1
  | c :: cs, i =>
    if c.FromID = col.FromID ∧ c.Position = col.Position then (i : Int)
    else GetColumnIndexFrom col cs (i + 1)

/-- Modelled from the spec: `Schema.GetColumnIndex`, see `GetColumnIndexFrom`. -/
def Schema.GetColumnIndex (s : Schema) (col : Column) : Int :=
  GetColumnIndexFrom col s.Columns 0

/-! ## Correlated columns and their data slots -/

/-- The `expression.CorrelatedColumn`: a column snapshot and the address of the
`types.Datum` it reads (`Data *types.Datum`). -/
structure CorrelatedColumn where
  Column : Column
  Data : Nat
  deriving DecidableEq, Repr

/-- The part of the Go heap that `extractCorColumnsBySchema` touches: the contents of the
`*CorrelatedColumn` objects held by the inner plan's expressions (addressed by a number),
and the first `types.Datum` address that `new` has not handed out yet. -/
structure Heap where
  cor : Nat → CorrelatedColumn
  nextDatum : Nat

/-- The assignment `corCol.Data = d` through the pointer `p`. -/
def Heap.setData (h : Heap) (p : Nat) (d : Nat) : Heap :=
  { cor := Function.update h.cor p { Column := (h.cor p).Column, Data := d },
    nextDatum := h.nextDatum }

/-- First loop of `extractCorColumnsBySchema` (decorrelate.go lines 24-35): one iteration
per pointer of `corCols`; `res` is `resultCorCols`. -/
def extractLoop (schema : List Column) :
    List Nat → List (Option CorrelatedColumn) → Heap →
      Option (List (Option CorrelatedColumn) × Heap)
  | [], res, h => some (res, h)
  | p :: ps, res, h =>
    let idx := GetColumnIndexFrom (h.cor p).Column schema 0
    if idx ≠ -1 then
      match res[idx.toNat]? with
      | none => none
      | some none =>
        match schema[idx.toNat]? with
        | none => none
        | some c =>
          let fresh : CorrelatedColumn := { Column := c, Data := h.nextDatum }
          let h1 : Heap := { cor := h.cor, nextDatum := h.nextDatum + 1 }
          extractLoop schema ps (res.set idx.toNat (some fresh)) (h1.setData p fresh.Data)
      | some (some b) => extractLoop schema ps res (h.setData p b.Data)
    else extractLoop schema ps res h

/-- Second loop of `extractCorColumnsBySchema` (lines 37-43). `todo` counts the iterations
left, `i` is the index the `range` loop is at and `length` is the Go variable of that name. -/
def shrinkLoop : Nat → Nat → Nat → List (Option CorrelatedColumn) →
    List (Option CorrelatedColumn)
  | 0, _, _, res => res
  | todo + 1, i, length, res =>
    match res[i]? with
    | some (some col) => shrinkLoop todo (i + 1) (length + 1) (res.set length (some col))
    | _ => shrinkLoop todo (i + 1) length res

/-- The function `extractCorColumnsBySchema(schema, innerPlan)`; `corCols` is the value of
`innerPlan.extractCorrelatedCols()`. The result is the returned slice (a `nil` entry is
`none`) and the heap after the call. Line 44 returns `resultCorCols` itself. -/
def extractCorColumnsBySchema (schema : List Column) (corCols : List Nat) (h : Heap) :
    Option (List (Option CorrelatedColumn) × Heap) :=
  match extractLoop schema corCols (List.replicate schema.length none) h with
  | none => none
  | some (res, h1) => some (shrinkLoop res.length 0 0 res, h1)

/-! ## Plan trees and `decorrelate` -/

inductive JoinType where
  | InnerJoin
  | LeftOuterJoin
  | RightOuterJoin
  | SemiJoin
  | SemiJoinWithAux
  deriving DecidableEq, Repr

/-- The fields of `basePlan` that `decorrelate` reads or writes. -/
structure basePlan where
  id : String
  schema : Schema
  parents : List String
  deriving DecidableEq, Repr

/-- The `Join` fields used by `decorrelate`: its kind and its condition list. -/
structure JoinNode (Expr : Type) where
  JoinType : JoinType
  onConds : List Expr
  deriving DecidableEq, Repr

/-- Modelled from the spec: `Join.attachOnConds` is not under src/; the rewritten conditions
are attached onto the join's own condition list. -/
def JoinNode.attachOnConds {Expr : Type} (j : JoinNode Expr) (newConds : List Expr) :
    JoinNode Expr :=
  { JoinType := j.JoinType, onConds := j.onConds ++ newConds }

/-- Unary operators that `decorrelate` treats generically. -/
inductive UnaryKind where
  | Projection
  | Trim
  | Aggregation
  deriving DecidableEq, Repr

/-- Logical plan nodes, arity fixed by kind. `Apply` embeds a `Join` (same `basePlan`)
and adds `corCols`. -/
inductive LogicalPlan (Expr : Type) where
  | DataSource (base : basePlan)
  | Unary (kind : UnaryKind) (base : basePlan) (child : LogicalPlan Expr)
  | Selection (base : basePlan) (Conditions : List Expr) (child : LogicalPlan Expr)
  | Join (base : basePlan) (join : JoinNode Expr) (left right : LogicalPlan Expr)
  | Apply (base : basePlan) (join : JoinNode Expr) (corCols : List (Option CorrelatedColumn))
      (outer inner : LogicalPlan Expr)
  deriving DecidableEq, Repr

namespace LogicalPlan

variable {Expr : Type}

def base : LogicalPlan Expr → basePlan
  | DataSource b => b
  | Unary _ b _ => b
  | Selection b _ _ => b
  | Join b _ _ _ => b
  | Apply b _ _ _ _ => b

def GetSchema (p : LogicalPlan Expr) : Schema := p.base.schema

/-- The call `p.SetParents(q)` where `q` has id `par`. -/
def SetParents (p : LogicalPlan Expr) (par : List String) : LogicalPlan Expr :=
  match p with
  | DataSource b => DataSource { b with parents := par }
  | Unary k b c => Unary k { b with parents := par } c
  | Selection b cs c => Selection { b with parents := par } cs c
  | Join b j l r => Join { b with parents := par } j l r
  | Apply b j cc o i => Apply { b with parents := par } j cc o i

/-- Number of nodes of a plan tree. -/
def size : LogicalPlan Expr → Nat
  | DataSource _ => 1
  | Unary _ _ c => c.size + 1
  | Selection _ _ c => c.size + 1
  | Join _ _ l r => l.size + r.size + 1
  | Apply _ _ _ o i => o.size + i.size + 1

end LogicalPlan

/-- The collaborators `decorrelate` calls that are defined outside src/:
`LogicalPlan.extractCorrelatedCols` (the pointers to the correlated columns a subtree
reads) and `Expression.Decorrelate`. -/
structure Collaborators (Expr : Type) where
  extractCorrelatedCols : LogicalPlan Expr → List Nat
  Decorrelate : Expr → List Column → Expr

/-- The function `decorrelate(p)`, with the heap threaded through. `none` is a run-time fault. -/
def decorrelate {Expr : Type} (env : Collaborators Expr) :
    LogicalPlan Expr → Heap → Option (LogicalPlan Expr × Heap)
  | .Apply b j _ outerPlan innerPlan, h =>
    match extractCorColumnsBySchema outerPlan.GetSchema.Columns
        (env.extractCorrelatedCols innerPlan) h with
    | none => none
    | some (corCols, h1) =>
      if corCols.length = 0 then
        -- p = apply.Join, then the loop over p.GetChildren()
        match decorrelate env (outerPlan.SetParents [b.id]) h1 with
        | none => none
        | some (o2, h2) =>
          match decorrelate env (innerPlan.SetParents [b.id]) h2 with
          | none => none
          | some (i2, h3) =>
            some (.Join b j (o2.SetParents [b.id]) (i2.SetParents [b.id]), h3)
      else
        match innerPlan with
        | .Selection _ conds q =>
          decorrelate env
            (.Apply b (j.attachOnConds (conds.map fun cond =>
                env.Decorrelate cond outerPlan.GetSchema.Columns))
              corCols outerPlan (q.SetParents [b.id])) h1
        | inner =>
          match decorrelate env outerPlan h1 with
          | none => none
          | some (o2, h2) =>
            match decorrelate env inner h2 with
            | none => none
            | some (i2, h3) =>
              some (.Apply b j corCols (o2.SetParents [b.id]) (i2.SetParents [b.id]), h3)
  | .DataSource b, h => some (.DataSource b, h)
  | .Unary k b c, h =>
    match decorrelate env c h with
    | none => none
    | some (c2, h2) => some (.Unary k b (c2.SetParents [b.id]), h2)
  | .Selection b conds c, h =>
    match decorrelate env c h with
    | none => none
    | some (c2, h2) => some (.Selection b conds (c2.SetParents [b.id]), h2)
  | .Join b j l r, h =>
    match decorrelate env l h with
    | none => none
    | some (l2, h2) =>
      match decorrelate env r h2 with
      | none => none
      | some (r2, h3) => some (.Join b j (l2.SetParents [b.id]) (r2.SetParents [b.id]), h3)
termination_by p => p.size
decreasing_by
  all_goals simp_wf
  all_goals
    have hpar : ∀ (q : LogicalPlan Expr) (par : List String), (q.SetParents par).size = q.size :=
      fun q par => by cases q <;> rfl
    simp only [LogicalPlan.size, hpar]
    omega

/-! ## Loop invariant of `extractCorColumnsBySchema` -/

/-- The outer-schema position that the correlated column at address `p` resolves to, as
line 25 computes it; `-1` when it is not a column of the outer schema. -/
def resolvedIndex (schema : List Column) (h : Heap) (p : Nat) : Int :=
  GetColumnIndexFrom (h.cor p).Column schema 0

/-- The reference at address `p` holds the data slot of the binding at the position it
resolves to. -/
def slotMatches (schema : List Column) (h0 : Heap) (res : List (Option CorrelatedColumn))
    (hc : Heap) (p : Nat) : Prop :=
  ∃ b, res[(resolvedIndex schema h0 p).toNat]? = some (some b) ∧ (hc.cor p).Data = b.Data

/-- Invariant of the first loop: `res` is `resultCorCols`, `hc` the heap now and `h0` the
heap at the call. -/
structure ExtractInv (schema : List Column) (h0 : Heap) (res : List (Option CorrelatedColumn))
    (hc : Heap) : Prop where
  len : res.length = schema.length
  col : ∀ q, (hc.cor q).Column = (h0.cor q).Column
  bind : ∀ (i : Nat) (b : CorrelatedColumn), res[i]? = some (some b) →
    schema[i]? = some b.Column ∧ b.Data < hc.nextDatum
  distinct : ∀ (i j : Nat) (b1 b2 : CorrelatedColumn), res[i]? = some (some b1) →
    res[j]? = some (some b2) → i ≠ j → b1.Data ≠ b2.Data
  keep : ∀ q, resolvedIndex schema h0 q = -1 → hc.cor q = h0.cor q

/-! ## Shapes of plan trees -/

namespace LogicalPlan

variable {Expr : Type}

/-- Whether the node is a Selection. -/
def isSelection : LogicalPlan Expr → Bool
  | Selection _ _ _ => true
  | _ => false

/-- Number of Selection nodes stacked at the top of a plan: under an Apply, the Selection
layers directly below it on the inner side. -/
def stackedSelections : LogicalPlan Expr → Nat
  | Selection _ _ c => c.stackedSelections + 1
  | _ => 0

/-- No Apply node of the tree has a Selection as its inner (second) child. -/
def noSelectionUnderApply : LogicalPlan Expr → Bool
  | DataSource _ => true
  | Unary _ _ c => c.noSelectionUnderApply
  | Selection _ _ c => c.noSelectionUnderApply
  | Join _ _ l r => l.noSelectionUnderApply && r.noSelectionUnderApply
  | Apply _ _ _ o i => !i.isSelection && (o.noSelectionUnderApply && i.noSelectionUnderApply)

/-- Whether the tree contains an Apply node. -/
def hasApply : LogicalPlan Expr → Bool
  | DataSource _ => false
  | Unary _ _ c => c.hasApply
  | Selection _ _ c => c.hasApply
  | Join _ _ l r => l.hasApply || r.hasApply
  | Apply _ _ _ _ _ => true

/-- The tree with every parent back-reference cleared: its shape, node kinds, schemas,
conditions and bindings. -/
def eraseParents : LogicalPlan Expr → LogicalPlan Expr
  | DataSource b => DataSource { b with parents := [] }
  | Unary k b c => Unary k { b with parents := [] } c.eraseParents
  | Selection b cs c => Selection { b with parents := [] } cs c.eraseParents
  | Join b j l r => Join { b with parents := [] } j l.eraseParents r.eraseParents
  | Apply b j cc o i => Apply { b with parents := [] } j cc o.eraseParents i.eraseParents

end LogicalPlan

/-! ## Key-info propagation (build_key_info.go)

Each `buildKeyInfo` takes the node's schema as `p.baseLogicalPlan.buildKeyInfo()` left it
(that base step is not under src/) and the schemas of the children, and returns the node's
schema afterwards. -/

/-- Inner loop of `Trim.buildKeyInfo` (lines 119-126): the state is `(ok, newKey)`. -/
def Trim.keyLoop (schema : Schema) : List Column → Bool → KeyInfo → Option (Bool × KeyInfo)
  | [], ok, newKey => some (ok, newKey)
  | col :: rest, ok, newKey =>
    let pos := schema.GetColumnIndex col
    if pos = -1 then some (false, newKey)
    else
      match schema.Columns[pos.toNat]? with
      | none => none
      | some c => Trim.keyLoop schema rest ok (newKey ++ [c])

/-- Outer loop of `Trim.buildKeyInfo` (lines 116-130); `keys` is `p.schema.Keys`.
Line 117 initialises `ok := false`. -/
def Trim.keysLoop (schema : Schema) : List KeyInfo → List KeyInfo → Option (List KeyInfo)
  | [], keys => some keys
  | key :: rest, keys =>
    match Trim.keyLoop schema key false [] with
    | none => none
    | some (ok, newKey) =>
      if ok then Trim.keysLoop schema rest (keys ++ [newKey])
      else Trim.keysLoop schema rest keys

/-- The method `(p *Trim) buildKeyInfo()`; `child` is `p.children[0].GetSchema()`. -/
def Trim.buildKeyInfo (schema child : Schema) : Option Schema :=
  match Trim.keysLoop schema child.Keys schema.Keys with
  | none => none
  | some keys => some { Columns := schema.Columns, Keys := keys }

/-- An element of `Join.EqualConditions`: `ln` and `rn` are `GetArgs()[0]` and
`GetArgs()[1]`, which lines 146-147 assert to be columns. -/
structure EqualCondition where
  ln : Column
  rn : Column
  deriving DecidableEq, Repr

/-- The loops of lines 148-153 and 154-159: sets the flag when some key group consists of
one column that `Equal`s `n`, and stops there. `Equal k n` is `k.Equal(n, p.ctx)`. -/
def Join.keyLoop (Equal : Column → Column → Bool) (n : Column) : List KeyInfo → Bool → Bool
  | [], ok => ok
  | key :: rest, ok =>
    match key with
    | [k] => if Equal k n then true else Join.keyLoop Equal n rest ok
    | _ => Join.keyLoop Equal n rest ok

/-- The loop over `p.EqualConditions` (lines 145-160); the state is `(lOk, rOk)`. -/
def Join.condLoop (Equal : Column → Column → Bool) (lKeys rKeys : List KeyInfo) :
    List EqualCondition → Bool → Bool → Bool × Bool
  | [], lOk, rOk => (lOk, rOk)
  | expr :: rest, lOk, rOk =>
    Join.condLoop Equal lKeys rKeys rest
      (Join.keyLoop Equal expr.ln lKeys lOk) (Join.keyLoop Equal expr.rn rKeys rOk)

/-- The method `(p *Join) buildKeyInfo()`; `child0` and `child1` are the schemas of
`p.children[0]` and `p.children[1]`. -/
def Join.buildKeyInfo (Equal : Column → Column → Bool) (jt : JoinType)
    (EqualConditions : List EqualCondition) (schema child0 child1 : Schema) : Schema :=
  match jt with
  | .SemiJoin | .SemiJoinWithAux => { Columns := schema.Columns, Keys := child0.Clone.Keys }
  | .InnerJoin | .LeftOuterJoin | .RightOuterJoin =>
    if EqualConditions.length = 0 then schema
    else
      let flags := Join.condLoop Equal child0.Keys child1.Keys EqualConditions false false
      let keys1 := if flags.1 then schema.Keys ++ child1.Keys else schema.Keys
      let keys2 := if flags.2 then keys1 ++ child0.Keys else keys1
      { Columns := schema.Columns, Keys := keys2 }

/-- The method `(p *Apply) buildKeyInfo()`. -/
def Apply.buildKeyInfo (schema child0 child1 : Schema) : Schema :=
  { Columns := schema.Columns, Keys := child0.Clone.Keys ++ child1.Clone.Keys }

/-- The `model.IndexColumn` field read by `DataSource.buildKeyInfo`. -/
structure IndexColumn where
  Name : CIStr
  deriving DecidableEq, Repr

/-- The `model.IndexInfo` fields read by `DataSource.buildKeyInfo`. -/
structure IndexInfo where
  Unique : Bool
  Columns : List IndexColumn
  deriving DecidableEq, Repr

/-- The `model.ColumnInfo` fields read by `DataSource.buildKeyInfo`. -/
structure ColumnInfo where
  Name : CIStr
  Flag : Nat
  deriving DecidableEq, Repr

/-- Loop of lines 185-191 over `p.schema.Columns`; the state is `(newKey, find)`. -/
def DataSource.findLoop (idxCol : IndexColumn) : List Column → KeyInfo → Bool → KeyInfo × Bool
  | [], newKey, find => (newKey, find)
  | col :: rest, newKey, find =>
    if idxCol.Name.L = col.ColName.L then (newKey ++ [col], true)
    else DataSource.findLoop idxCol rest newKey find

/-- Loop of lines 182-196 over `idx.Columns`; the state is `(newKey, ok)`. -/
def DataSource.idxColLoop (cols : List Column) : List IndexColumn → KeyInfo → Bool → KeyInfo × Bool
  | [], newKey, ok => (newKey, ok)
  | idxCol :: rest, newKey, ok =>
    let r := DataSource.findLoop idxCol cols newKey false
    if !r.2 then (r.1, false)
    else DataSource.idxColLoop cols rest r.1 ok

/-- Loop of lines 176-201 over the available indices; `keys` is `p.schema.Keys`. -/
def DataSource.indexLoop (cols : List Column) : List IndexInfo → List KeyInfo → List KeyInfo
  | [], keys => keys
  | idx :: rest, keys =>
    if !idx.Unique then DataSource.indexLoop cols rest keys
    else
      let r := DataSource.idxColLoop cols idx.Columns [] true
      if r.2 then DataSource.indexLoop cols rest (keys ++ [r.1])
      else DataSource.indexLoop cols rest keys

/-- Loop of lines 200-205 over `p.Columns`; `i` is the index the loop is at. -/
def DataSource.pkLoop (HasPriKeyFlag : Nat → Bool) (schemaCols : List Column) :
    List ColumnInfo → Nat → List KeyInfo → Option (List KeyInfo)
  | [], _, keys => some keys
  | col :: rest, i, keys =>
    if HasPriKeyFlag col.Flag then
      match schemaCols[i]? with
      | none => none
      | some c => some (keys ++ [[c]])
    else DataSource.pkLoop HasPriKeyFlag schemaCols rest (i + 1) keys

/-- The method `(p *DataSource) buildKeyInfo()`. `indices` is the first result of
`availableIndices(p.indexHints, p.tableInfo)`, `HasPriKeyFlag` is `mysql.HasPriKeyFlag`
(both outside src/), `Columns` is `p.Columns`. -/
def DataSource.buildKeyInfo (HasPriKeyFlag : Nat → Bool) (indices : List IndexInfo)
    (PKIsHandle : Bool) (Columns : List ColumnInfo) (schema : Schema) : Option Schema :=
  let keys1 := DataSource.indexLoop schema.Columns indices schema.Keys
  if PKIsHandle then
    match DataSource.pkLoop HasPriKeyFlag schema.Columns Columns 0 keys1 with
    | none => none
    | some keys2 => some { Columns := schema.Columns, Keys := keys2 }
  else some { Columns := schema.Columns, Keys := keys1 }

/-! ### Aggregation and Projection -/

/-- An `expression.Expression` as far as build_key_info.go inspects it: the type assertion
`.(*expression.Column)` succeeds on a bare column and fails on anything else. -/
inductive Expression where
  | Column (col : Column)
  | NotColumn (text : String)
  deriving DecidableEq, Repr

/-- Modelled from the spec: the constant `ast.AggFuncFirstRow` (outside src/), the name of
the pass-through "first row of column" aggregate. -/
def AggFuncFirstRow : String := "firstrow"

/-- An aggregate function application as far as build_key_info.go reads it: `GetName()`
and `GetArgs()[0]`. -/
structure AggregationFunction where
  Name : String
  Arg0 : Expression
  deriving DecidableEq, Repr

/-- The column built on lines 32-34, 48-50 and 91-93 to occupy a position. The fields that
the literal does not set have their zero value. -/
def placeholderColumn : Column :=
  { FromID := "", Position := -1, ColName := { O := "", L := "" } }

/-- Modelled from the spec: `expression.NewSchema(cols)` (outside src/), a schema with the
given columns and no key group. -/
def NewSchema (cols : List Column) : Schema := { Columns := cols, Keys := [] }

/-- Modelled from the spec: `Schema.Append(col)` (outside src/). -/
def Schema.Append (s : Schema) (col : Column) : Schema :=
  { Columns := s.Columns ++ [col], Keys := s.Keys }

/-- Modelled from the spec: the loop of `Schema.GetColumnsIndices` (outside src/): the
position of each column, in order; the second result is false (here `none`) as soon as one
column is not found. -/
def GetColumnsIndicesLoop (s : Schema) : List Column → List Int → Option (List Int)
  | [], ret => some ret
  | col :: rest, ret =>
    let pos := s.GetColumnIndex col
    if pos ≠ -1 then GetColumnsIndicesLoop s rest (ret ++ [pos])
    else none

/-- Modelled from the spec: `Schema.GetColumnsIndices`, see `GetColumnsIndicesLoop`. -/
def Schema.GetColumnsIndices (s : Schema) (cols : List Column) : Option (List Int) :=
  GetColumnsIndicesLoop s cols []

/-- The loop `for _, i := range indices { newKey = append(newKey, cols[i]) }` of lines
58-60, 73-75 and 107-109; an index outside `cols` is a run-time fault. -/
def newKeyLoop (cols : List Column) : List Int → KeyInfo → Option KeyInfo
  | [], newKey => some newKey
  | i :: rest, newKey =>
    if i < 0 then none
    else
      match cols[i.toNat]? with
      | none => none
      | some c => newKeyLoop cols rest (newKey ++ [c])

/-- The loop over `p.AggFuncs` of lines 26-35, which lines 43-52 repeat; `schema` is the
schema being appended to. -/
def Aggregation.funcLoop : List AggregationFunction → Schema → Schema
  | [], schema => schema
  | f :: rest, schema =>
    match f.Arg0 with
    | .Column col =>
      if f.Name = AggFuncFirstRow then Aggregation.funcLoop rest (schema.Append col)
      else Aggregation.funcLoop rest (schema.Append placeholderColumn)
    | .NotColumn _ => Aggregation.funcLoop rest (schema.Append placeholderColumn)

/-- The method `(p *Aggregation) buildSchemaByAggFuncs()`. -/
def Aggregation.buildSchemaByAggFuncs (AggFuncs : List AggregationFunction) : Schema :=
  Aggregation.funcLoop AggFuncs (NewSchema [])

/-- The loop over the child's key groups of lines 53-63 (and of lines 101-111 of
`Projection.buildKeyInfo`, which is the same code): `aux` is the auxiliary schema, `own` is
`p.schema.Columns` and `keys` is `p.schema.Keys`. -/
def auxKeysLoop (aux : Schema) (own : List Column) :
    List KeyInfo → List KeyInfo → Option (List KeyInfo)
  | [], keys => some keys
  | key :: rest, keys =>
    match aux.GetColumnsIndices key with
    | none => auxKeysLoop aux own rest keys
    | some indices =>
      match newKeyLoop own indices [] with
      | none => none
      | some newKey => auxKeysLoop aux own rest (keys ++ [newKey])

/-- The loop over the child's key groups of lines 67-78, which stops at the first key
group that is translated. -/
def Aggregation.groupbyLoop (schemaByGroupby : Schema) :
    List KeyInfo → List KeyInfo → Option (List KeyInfo)
  | [], keys => some keys
  | key :: rest, keys =>
    match schemaByGroupby.GetColumnsIndices key with
    | none => Aggregation.groupbyLoop schemaByGroupby rest keys
    | some indices =>
      match newKeyLoop schemaByGroupby.Columns indices [] with
      | none => none
      | some newKey => some (keys ++ [newKey])

/-- The auxiliary schema of lines 42-52 of `Aggregation.buildKeyInfo`: the result of
`buildSchemaByAggFuncs` with the per-function columns appended once more. -/
def Aggregation.schemaByFuncs (AggFuncs : List AggregationFunction) : Schema :=
  Aggregation.funcLoop AggFuncs (Aggregation.buildSchemaByAggFuncs AggFuncs)

/-- The part of `Aggregation.buildKeyInfo` that deals with `p.AggFuncs` (lines 41-63);
the result is `p.schema.Keys`. -/
def Aggregation.aggFuncKeys (AggFuncs : List AggregationFunction) (schema child : Schema) :
    Option (List KeyInfo) :=
  auxKeysLoop (Aggregation.schemaByFuncs AggFuncs) schema.Columns child.Keys schema.Keys

/-- The method `(p *Aggregation) buildKeyInfo()`; `groupByCols` is `p.groupByCols`. -/
def Aggregation.buildKeyInfo (AggFuncs : List AggregationFunction) (groupByCols : List Column)
    (schema child : Schema) : Option Schema :=
  match Aggregation.aggFuncKeys AggFuncs schema child with
  | none => none
  | some keys1 =>
    match Aggregation.groupbyLoop (NewSchema groupByCols) child.Keys keys1 with
    | none => none
    | some keys2 => some { Columns := schema.Columns, Keys := keys2 }

/-- The loop over `p.Exprs` of lines 85-94. -/
def Projection.exprLoop : List Expression → Schema → Schema
  | [], schema => schema
  | expr :: rest, schema =>
    match expr with
    | .Column col => Projection.exprLoop rest (schema.Append col)
    | .NotColumn _ => Projection.exprLoop rest (schema.Append placeholderColumn)

/-- The method `(p *Projection) buildSchemaByExprs()`. -/
def Projection.buildSchemaByExprs (Exprs : List Expression) : Schema :=
  Projection.exprLoop Exprs (NewSchema [])

/-- The method `(p *Projection) buildKeyInfo()`. -/
def Projection.buildKeyInfo (Exprs : List Expression) (schema child : Schema) : Option Schema :=
  match auxKeysLoop (Projection.buildSchemaByExprs Exprs) schema.Columns child.Keys
      schema.Keys with
  | none => none
  | some keys => some { Columns := schema.Columns, Keys := keys }

/-! ## The unique-index rule in the words of the spec -/

/-- The first column of `cols` whose lower-cased name is that of the index column. -/
def firstMatch (cols : List Column) (ic : IndexColumn) : Option Column :=
  cols.find? fun c => decide (ic.Name.L = c.ColName.L)

/-- The key group the spec gives an index: if the index is unique and every index column
is found in the output schema by lower-cased name, the found schema columns in
index-declaration order; no key group otherwise. -/
def uniqueIndexKey (cols : List Column) (idx : IndexInfo) : Option KeyInfo :=
  if idx.Unique = true ∧ ∀ ic ∈ idx.Columns, ∃ c ∈ cols, ic.Name.L = c.ColName.L then
    some (idx.Columns.filterMap (firstMatch cols))
  else none

/-! ## The pass-through rules in the words of the spec -/

/-- The column an aggregate passes through: the bare-column argument of a first-row
aggregate; nothing for any other aggregate. -/
def Aggregation.passThrough (f : AggregationFunction) : Option Column :=
  match f.Arg0 with
  | .Column col => if f.Name = AggFuncFirstRow then some col else none
  | .NotColumn _ => none

/-- The column a projection expression passes through: the expression itself when it is a
bare column. -/
def Projection.passThrough (e : Expression) : Option Column :=
  match e with
  | .Column col => some col
  | .NotColumn _ => none

/-- The first output position that passes the column `col` through (same owner and same
ordinal); `slots` lists, per output position, the column passed through there, and `i` is
the position of the head of `slots`. -/
def passThroughPosition (col : Column) : List (Option Column) → Nat → Option Nat
  | [], _ => none
  | none :: rest, i => passThroughPosition col rest (i + 1)
  | some c :: rest, i =>
    if c.FromID = col.FromID ∧ c.Position = col.Position then some i
    else passThroughPosition col rest (i + 1)

/-- The translation of a child key group: if every column of the key group is passed
through at some output position, the output columns `own` at the first such positions, in
the order of the key group; nothing otherwise. -/
def translateKey (slots : List (Option Column)) (own : List Column) : KeyInfo → Option KeyInfo
  | [] => some []
  | col :: rest =>
    match passThroughPosition col slots 0 with
    | none => none
    | some j =>
      match own[j]?, translateKey slots own rest with
      | some c, some t => some (c :: t)
      | _, _ => none

/-- A column that is not the placeholder: it has an owner or an ordinal other than -1. -/
def isRealColumn (col : Column) : Prop := ¬ (col.FromID = "" ∧ col.Position = -1)

/-- The group-by rule in the words of the spec: the first child key group whose columns are
all found in the group-by list, translated to the group-by columns found; at most one. -/
def groupByKey (groupByCols : List Column) (childKeys : List KeyInfo) : List KeyInfo :=
  match childKeys.find? fun key =>
      key.all fun col => decide ((NewSchema groupByCols).GetColumnIndex col ≠ -1) with
  | none => []
  | some key =>
    [key.filterMap fun col =>
      groupByCols.find? fun g => decide (g.FromID = col.FromID ∧ g.Position = col.Position)]

/-! ## Concrete plans used by the evaluations below -/

/-- Builds the column `name` at ordinal `pos` of the operator `owner`. -/
def mkCol (owner : String) (pos : Int) (name : String) : Column :=
  { FromID := owner, Position := pos, ColName := { O := name, L := name } }

/-- A heap whose correlated-column objects all read `t1.b`. -/
def heapB : Heap := { cor := fun _ => { Column := mkCol "t1" 1 "b", Data := 7 }, nextDatum := 100 }

/-- Collaborators for a plan without correlated columns. -/
def noCorCols : Collaborators Nat :=
  { extractCorrelatedCols := fun _ => [], Decorrelate := fun e _ => e }

/-- An Apply over `t1(a)` and `t2(c)` whose inner side reads no outer column. -/
def uncorrelatedApply : LogicalPlan Nat :=
  .Apply { id := "apply", schema := ⟨[mkCol "t1" 0 "a", mkCol "t2" 0 "c"], []⟩, parents := [] }
    { JoinType := .InnerJoin, onConds := [] } []
    (.DataSource { id := "t1", schema := ⟨[mkCol "t1" 0 "a"], []⟩, parents := [] })
    (.DataSource { id := "t2", schema := ⟨[mkCol "t2" 0 "c"], []⟩, parents := [] })

/-- Column equality used by the concrete joins below: the same column value. -/
def sameColumn (a b : Column) : Bool := decide (a = b)

/-- Left child `L(id, a)` with key group `{L.id}`. -/
def leftL : Schema :=
  { Columns := [mkCol "L" 0 "id", mkCol "L" 1 "a"], Keys := [[mkCol "L" 0 "id"]] }

/-- Right child `R(id, fk)` with key group `{R.id}`. -/
def rightR : Schema :=
  { Columns := [mkCol "R" 0 "id", mkCol "R" 1 "fk"], Keys := [[mkCol "R" 0 "id"]] }

/-- Schema of a join of `L` and `R` as the base step leaves it: no key group. -/
def joinLR : Schema :=
  { Columns := [mkCol "L" 0 "id", mkCol "L" 1 "a", mkCol "R" 0 "id", mkCol "R" 1 "fk"],
    Keys := [] }

/-- The condition `L.id = R.fk`. -/
def condIdFk : EqualCondition := { ln := mkCol "L" 0 "id", rn := mkCol "R" 1 "fk" }

/-- The flag test of the concrete tables below: bit 1 of the flag word. -/
def priKeyBit (flag : Nat) : Bool := flag.testBit 1

/-- Output schema of a table `t(id, name)` as the base step leaves it. -/
def tableT : Schema :=
  { Columns := [mkCol "t" 0 "id", mkCol "t" 1 "name"], Keys := [] }

/-- Column infos of `t(id, name)`: `id` carries the primary-key flag. -/
def tableTColumns : List ColumnInfo :=
  [{ Name := ⟨"id", "id"⟩, Flag := 2 }, { Name := ⟨"name", "name"⟩, Flag := 0 }]

/-- Indices of `t`: a unique index on `(name, id)`, a non-unique one on `(name)` and a
unique one on `(name, email)`, whose second column is not in the output schema. -/
def tableTIndices : List IndexInfo :=
  [{ Unique := true, Columns := [⟨⟨"name", "name"⟩⟩, ⟨⟨"ID", "id"⟩⟩] },
   { Unique := false, Columns := [⟨⟨"name", "name"⟩⟩] },
   { Unique := true, Columns := [⟨⟨"name", "name"⟩⟩, ⟨⟨"email", "email"⟩⟩] }]

/-- Child of the aggregation and projection below: `t(id, amt)` with key group `{t.id}`. -/
def childT : Schema :=
  { Columns := [mkCol "t" 0 "id", mkCol "t" 1 "amt"], Keys := [[mkCol "t" 0 "id"]] }

/-- The aggregates `FIRST_ROW(t.id)` and `SUM(t.amt)`. -/
def aggFuncsT : List AggregationFunction :=
  [{ Name := AggFuncFirstRow, Arg0 := .Column (mkCol "t" 0 "id") },
   { Name := "sum", Arg0 := .Column (mkCol "t" 1 "amt") }]

/-- Output schema of the aggregation as the base step leaves it: two columns, no key group. -/
def aggSchemaT : Schema :=
  { Columns := [mkCol "agg" 0 "id", mkCol "agg" 1 "total"], Keys := [] }

/-- The projection expressions `t.amt + 1`, `t.id`. -/
def projExprsT : List Expression :=
  [.NotColumn "t.amt + 1", .Column (mkCol "t" 0 "id")]

/-- Output schema of the projection as the base step leaves it. -/
def projSchemaT : Schema :=
  { Columns := [mkCol "proj" 0 "amt1", mkCol "proj" 1 "id"], Keys := [] }

/-- A heap whose correlated-column objects all read `t1.a`. -/
def heapA : Heap := { cor := fun _ => { Column := mkCol "t1" 0 "a", Data := 7 }, nextDatum := 100 }

/-- Collaborators for the plan below: a Selection holds the correlated column at address 0,
no other node holds one, and `Decorrelate` rewrites condition `n` to condition `n + 10`. -/
def selectionCorCols : Collaborators Nat :=
  { extractCorrelatedCols := fun p => if p.isSelection then [0] else [],
    Decorrelate := fun e _ => e + 10 }

/-- The inner side of the Apply below: a Selection with conditions 1 and 2 over `t2(c)`. -/
def selectionOverT2 : LogicalPlan Nat :=
  .Selection { id := "sel", schema := ⟨[mkCol "t2" 0 "c"], []⟩, parents := ["apply"] } [1, 2]
    (.DataSource { id := "t2", schema := ⟨[mkCol "t2" 0 "c"], []⟩, parents := ["sel"] })

/-- An Apply over `t1(a)` whose inner side is a Selection reading `t1.a`. -/
def applyOverSelection : LogicalPlan Nat :=
  .Apply { id := "apply", schema := ⟨[mkCol "t1" 0 "a", mkCol "t2" 0 "c"], []⟩, parents := [] }
    { JoinType := .LeftOuterJoin, onConds := [0] } []
    (.DataSource { id := "t1", schema := ⟨[mkCol "t1" 0 "a"], []⟩, parents := ["apply"] })
    selectionOverT2

/-- A heap with four correlated-column objects: addresses 0 and 1 read `t1.b`, address 2
reads `t1.a` and every other address reads `t9.z`. -/
def heapMixed : Heap :=
  { cor := fun p =>
      if p = 0 then { Column := mkCol "t1" 1 "b", Data := 10 }
      else if p = 1 then { Column := mkCol "t1" 1 "b", Data := 11 }
      else if p = 2 then { Column := mkCol "t1" 0 "a", Data := 12 }
      else { Column := mkCol "t9" 0 "z", Data := 13 },
    nextDatum := 100 }

/-- Schema of a join of `L` and `R` on which a key group `{L.a}` is already present. -/
def joinLRWithKey : Schema :=
  { Columns := [mkCol "L" 0 "id", mkCol "L" 1 "a", mkCol "R" 0 "id", mkCol "R" 1 "fk"],
    Keys := [[mkCol "L" 1 "a"]] }

/-- The invariant of the data model: every column of every key group of the schema is one
of the schema's columns. -/
def Schema.keysWithinColumns (s : Schema) : Prop :=
  ∀ key ∈ s.Keys, ∀ col ∈ key, col ∈ s.Columns

/-! ## Theorems -/

theorem LogicalPlan.size_SetParents {Expr : Type} (p : LogicalPlan Expr) (par : List String) :
    (p.SetParents par).size = p.size := by
  cases p <;> rfl

/-- C1 (evaluation at the failing input): on an Apply with the one-column outer schema
`[t1.a]` whose inner side has no correlated column at all, `decorrelate` does not return a
Join: it returns the Apply, and the binding list stored on it is `[nil]`, of length 1. -/
theorem decorrelate_keeps_uncorrelatedApply :
    (decorrelate noCorCols uncorrelatedApply heapB).map Prod.fst =
      some (.Apply
        { id := "apply", schema := ⟨[mkCol "t1" 0 "a", mkCol "t2" 0 "c"], []⟩, parents := [] }
        { JoinType := .InnerJoin, onConds := [] } [none]
        (.DataSource { id := "t1", schema := ⟨[mkCol "t1" 0 "a"], []⟩, parents := ["apply"] })
        (.DataSource { id := "t2", schema := ⟨[mkCol "t2" 0 "c"], []⟩, parents := ["apply"] })) := by
  simp [decorrelate, uncorrelatedApply, noCorCols, extractCorColumnsBySchema, extractLoop,
    shrinkLoop, LogicalPlan.GetSchema, LogicalPlan.base, LogicalPlan.SetParents]

/-- C2 (evaluation at the failing inputs): with outer schema `[t1.a, t1.b]` and one inner
reference to `t1.b`, `extractCorColumnsBySchema` returns two entries, the binding of `t1.b`
twice; with outer schema `[t1.a]` and no reference it returns `[nil]`; with outer schema
`[t1.a, t1.b]` and two references to `t1.b` it again returns that binding twice. -/
theorem extractCorColumnsBySchema_not_shrunk :
    (extractCorColumnsBySchema [mkCol "t1" 0 "a", mkCol "t1" 1 "b"] [0] heapB).map Prod.fst
        = some [some ⟨mkCol "t1" 1 "b", 100⟩, some ⟨mkCol "t1" 1 "b", 100⟩]
    ∧ (extractCorColumnsBySchema [mkCol "t1" 0 "a"] [] heapB).map Prod.fst = some [none]
    ∧ (extractCorColumnsBySchema [mkCol "t1" 0 "a", mkCol "t1" 1 "b"] [0, 1] heapB).map Prod.fst
        = some [some ⟨mkCol "t1" 1 "b", 100⟩, some ⟨mkCol "t1" 1 "b", 100⟩] := by
  refine ⟨by decide, by decide, by decide⟩

/-- C4 (evaluation at the failing input): for a Trim with schema `[t1.a]` over a child with
columns `[t1.a, t1.b]` and key group `{t1.a}`, the column of the key group is found in the
Trim's schema (at position 0), yet `Trim.buildKeyInfo` leaves the key-group list empty. -/
theorem Trim_buildKeyInfo_registers_nothing :
    Schema.GetColumnIndex ⟨[mkCol "t1" 0 "a"], []⟩ (mkCol "t1" 0 "a") = 0
    ∧ Trim.buildKeyInfo ⟨[mkCol "t1" 0 "a"], []⟩
        ⟨[mkCol "t1" 0 "a", mkCol "t1" 1 "b"], [[mkCol "t1" 0 "a"]]⟩
      = some ⟨[mkCol "t1" 0 "a"], []⟩ := by
  refine ⟨by decide, by decide⟩

/-! ### Column lookup -/

theorem GetColumnIndexFrom_range (col : Column) (cs : List Column) (i : Nat) :
    GetColumnIndexFrom col cs i = -1 ∨
      ∃ k, k < cs.length ∧ GetColumnIndexFrom col cs i = ((i + k : Nat) : Int) := by
  induction cs generalizing i with
  | nil => exact Or.inl rfl
  | cons c cs ih =>
    simp only [GetColumnIndexFrom]
    split
    · exact Or.inr ⟨0, by simp, by simp⟩
    · rcases ih (i + 1) with h | ⟨k, hk, h⟩
      · exact Or.inl h
      · refine Or.inr ⟨k + 1, by simp; omega, ?_⟩
        rw [h]
        congr 1
        omega

theorem Schema.GetColumnIndex_valid (s : Schema) (col : Column)
    (h : s.GetColumnIndex col ≠ -1) :
    ∃ c, s.Columns[(s.GetColumnIndex col).toNat]? = some c := by
  rcases GetColumnIndexFrom_range col s.Columns 0 with h1 | ⟨k, hk, h1⟩
  · exact absurd h1 h
  · have hk2 : (s.GetColumnIndex col).toNat = k := by
      simp [Schema.GetColumnIndex, h1]
    rw [hk2]
    exact ⟨s.Columns[k], List.getElem?_eq_getElem hk⟩

/-! ### Trim -/

theorem Trim.keyLoop_false (schema : Schema) (key : List Column) (newKey : KeyInfo) :
    ∃ nk, Trim.keyLoop schema key false newKey = some (false, nk) := by
  induction key generalizing newKey with
  | nil => exact ⟨newKey, rfl⟩
  | cons col rest ih =>
    simp only [Trim.keyLoop]
    split
    · exact ⟨newKey, rfl⟩
    · next hpos =>
      obtain ⟨c, hc⟩ := Schema.GetColumnIndex_valid schema col hpos
      rw [hc]
      exact ih (newKey ++ [c])

theorem Trim.keysLoop_eq (schema : Schema) (childKeys keys : List KeyInfo) :
    Trim.keysLoop schema childKeys keys = some keys := by
  induction childKeys generalizing keys with
  | nil => rfl
  | cons key rest ih =>
    obtain ⟨nk, hnk⟩ := Trim.keyLoop_false schema key []
    simp only [Trim.keysLoop, hnk]
    exact ih keys

/-- C5: if a key group of the child has a column that is absent from the Trim's schema,
the loop body of `Trim.buildKeyInfo` registers nothing for it (the key-group list is left
as it was, so neither the full nor a partial group is added), and `Trim.buildKeyInfo`
returns the same schema as for the child without that key group; it returns a schema. -/
theorem Trim_drop_rule (schema : Schema) (childCols : List Column) (pre post : List KeyInfo)
    (key : KeyInfo) (habsent : ∃ col ∈ key, schema.GetColumnIndex col = -1) :
    (∀ keys, Trim.keysLoop schema [key] keys = some keys)
    ∧ Trim.buildKeyInfo schema ⟨childCols, pre ++ key :: post⟩
        = Trim.buildKeyInfo schema ⟨childCols, pre ++ post⟩
    ∧ (Trim.buildKeyInfo schema ⟨childCols, pre ++ key :: post⟩).isSome = true := by
  have _ := habsent
  refine ⟨fun keys => Trim.keysLoop_eq schema [key] keys, ?_, ?_⟩
  · simp only [Trim.buildKeyInfo, Trim.keysLoop_eq]
  · simp only [Trim.buildKeyInfo, Trim.keysLoop_eq, Option.isSome]

/-- C5 at a Trim with schema `[t1.a]` and the child key group `{t1.a, t1.b}`. -/
theorem Trim_drop_rule_witness :
    (∃ col ∈ [mkCol "t1" 0 "a", mkCol "t1" 1 "b"],
        Schema.GetColumnIndex ⟨[mkCol "t1" 0 "a"], []⟩ col = -1)
    ∧ Trim.buildKeyInfo ⟨[mkCol "t1" 0 "a"], []⟩
        ⟨[mkCol "t1" 0 "a", mkCol "t1" 1 "b"], [] ++ [mkCol "t1" 0 "a", mkCol "t1" 1 "b"] :: []⟩
      = Trim.buildKeyInfo ⟨[mkCol "t1" 0 "a"], []⟩
        ⟨[mkCol "t1" 0 "a", mkCol "t1" 1 "b"], [] ++ []⟩ :=
  ⟨⟨mkCol "t1" 1 "b", by simp, by decide⟩,
   (Trim_drop_rule ⟨[mkCol "t1" 0 "a"], []⟩ [mkCol "t1" 0 "a", mkCol "t1" 1 "b"] [] []
      [mkCol "t1" 0 "a", mkCol "t1" 1 "b"] ⟨mkCol "t1" 1 "b", by simp, by decide⟩).2.1⟩

/-! ### Join -/

theorem Join.keyLoop_true (Equal : Column → Column → Bool) (n : Column)
    (keys : List KeyInfo) (ok : Bool) :
    Join.keyLoop Equal n keys ok = true ↔
      (ok = true ∨ ∃ k, [k] ∈ keys ∧ Equal k n = true) := by
  induction keys with
  | nil => simp [Join.keyLoop]
  | cons key rest ih =>
    match key with
    | [] =>
      simp only [Join.keyLoop, ih]
      simp
    | [k] =>
      simp only [Join.keyLoop]
      cases hk : Equal k n with
      | true =>
        simp only [if_true, true_iff]
        exact Or.inr ⟨k, by simp, hk⟩
      | false =>
        have hif : (if false = true then true else Join.keyLoop Equal n rest ok)
            = Join.keyLoop Equal n rest ok := by simp
        rw [hif, ih]
        constructor
        · rintro (h | ⟨k2, hk2, he⟩)
          · exact Or.inl h
          · exact Or.inr ⟨k2, List.mem_cons_of_mem _ hk2, he⟩
        · rintro (h | ⟨k2, hk2, he⟩)
          · exact Or.inl h
          · rcases List.mem_cons.1 hk2 with h1 | h1
            · have h2 : k2 = k := by simpa using h1
              rw [h2, hk] at he
              exact absurd he (by decide)
            · exact Or.inr ⟨k2, h1, he⟩
    | k1 :: k2 :: t =>
      simp only [Join.keyLoop, ih]
      simp

theorem Join.condLoop_fst (Equal : Column → Column → Bool) (lKeys rKeys : List KeyInfo)
    (conds : List EqualCondition) (lOk rOk : Bool) :
    (Join.condLoop Equal lKeys rKeys conds lOk rOk).1 = true ↔
      (lOk = true ∨ ∃ c ∈ conds, ∃ k, [k] ∈ lKeys ∧ Equal k c.ln = true) := by
  induction conds generalizing lOk rOk with
  | nil => simp [Join.condLoop]
  | cons c rest ih =>
    simp only [Join.condLoop, ih, Join.keyLoop_true, List.mem_cons, exists_eq_or_imp]
    exact or_assoc

theorem Join.condLoop_snd (Equal : Column → Column → Bool) (lKeys rKeys : List KeyInfo)
    (conds : List EqualCondition) (lOk rOk : Bool) :
    (Join.condLoop Equal lKeys rKeys conds lOk rOk).2 = true ↔
      (rOk = true ∨ ∃ c ∈ conds, ∃ k, [k] ∈ rKeys ∧ Equal k c.rn = true) := by
  induction conds generalizing lOk rOk with
  | nil => simp [Join.condLoop]
  | cons c rest ih =>
    simp only [Join.condLoop, ih, Join.keyLoop_true, List.mem_cons, exists_eq_or_imp]
    exact or_assoc

theorem Join.buildKeyInfo_keys (Equal : Column → Column → Bool) (jt : JoinType)
    (conds : List EqualCondition) (schema child0 child1 : Schema)
    (hjt : jt = .InnerJoin ∨ jt = .LeftOuterJoin ∨ jt = .RightOuterJoin) (hne : conds ≠ []) :
    (Join.buildKeyInfo Equal jt conds schema child0 child1).Keys =
      (schema.Keys
        ++ (if (Join.condLoop Equal child0.Keys child1.Keys conds false false).1
            then child1.Keys else []))
        ++ (if (Join.condLoop Equal child0.Keys child1.Keys conds false false).2
            then child0.Keys else []) := by
  have hlen : conds.length ≠ 0 := by
    cases conds with
    | nil => exact absurd rfl hne
    | cons c cs => simp
  rcases hjt with h | h | h <;> subst h <;> simp only [Join.buildKeyInfo, hlen, if_false] <;>
    cases (Join.condLoop Equal child0.Keys child1.Keys conds false false).1 <;>
    cases (Join.condLoop Equal child0.Keys child1.Keys conds false false).2 <;> simp

/-- C6: for an inner, left-outer or right-outer Join with at least one equality condition,
if the left column of some condition `Equal`s the column of a one-column key group of the
left child, every key group of the right child is among the Join's key groups; if the right
column of some condition `Equal`s the column of a one-column key group of the right child,
every key group of the left child is; and when both hold, the Join's key groups are the ones
it had, then the right child's, then the left child's. -/
theorem Join_append_rule (Equal : Column → Column → Bool) (jt : JoinType)
    (conds : List EqualCondition) (schema child0 child1 : Schema)
    (hjt : jt = .InnerJoin ∨ jt = .LeftOuterJoin ∨ jt = .RightOuterJoin) (hne : conds ≠ []) :
    ((∃ c ∈ conds, ∃ k, [k] ∈ child0.Keys ∧ Equal k c.ln = true) →
        ∀ key ∈ child1.Keys, key ∈ (Join.buildKeyInfo Equal jt conds schema child0 child1).Keys)
    ∧ ((∃ c ∈ conds, ∃ k, [k] ∈ child1.Keys ∧ Equal k c.rn = true) →
        ∀ key ∈ child0.Keys, key ∈ (Join.buildKeyInfo Equal jt conds schema child0 child1).Keys)
    ∧ ((∃ c ∈ conds, ∃ k, [k] ∈ child0.Keys ∧ Equal k c.ln = true) →
        (∃ c ∈ conds, ∃ k, [k] ∈ child1.Keys ∧ Equal k c.rn = true) →
        (Join.buildKeyInfo Equal jt conds schema child0 child1).Keys
          = schema.Keys ++ child1.Keys ++ child0.Keys) := by
  rw [Join.buildKeyInfo_keys Equal jt conds schema child0 child1 hjt hne]
  refine ⟨fun hl key hkey => ?_, fun hr key hkey => ?_, fun hl hr => ?_⟩
  · have h1 := (Join.condLoop_fst Equal child0.Keys child1.Keys conds false false).2 (Or.inr hl)
    rw [h1]
    simp [hkey]
  · have h2 := (Join.condLoop_snd Equal child0.Keys child1.Keys conds false false).2 (Or.inr hr)
    rw [h2]
    simp [hkey]
  · have h1 := (Join.condLoop_fst Equal child0.Keys child1.Keys conds false false).2 (Or.inr hl)
    have h2 := (Join.condLoop_snd Equal child0.Keys child1.Keys conds false false).2 (Or.inr hr)
    rw [h1, h2]
    simp

/-- C6 at the inner join of `L` and `R` on `L.id = R.fk`: the right key group `{R.id}` is a
key group of the join. -/
theorem Join_append_rule_witness :
    (∃ c ∈ [condIdFk], ∃ k, [k] ∈ leftL.Keys ∧ sameColumn k c.ln = true)
    ∧ ∀ key ∈ rightR.Keys,
        key ∈ (Join.buildKeyInfo sameColumn .InnerJoin [condIdFk] joinLR leftL rightR).Keys :=
  ⟨⟨condIdFk, by simp, mkCol "L" 0 "id", by simp [leftL], by decide⟩,
   (Join_append_rule sameColumn .InnerJoin [condIdFk] joinLR leftL rightR (Or.inl rfl)
      (by simp)).1 ⟨condIdFk, by simp, mkCol "L" 0 "id", by simp [leftL], by decide⟩⟩

/-- C7: for an inner, left-outer or right-outer Join with at least one equality condition,
if the left column of some condition `Equal`s the column of a one-column key group of the
left child and no condition's right column `Equal`s the column of a one-column key group of
the right child, the key groups the Join has afterwards are the ones it had followed by the
right child's key groups in order; the added part is the right child's list, and a left
key group that is not also a right key group is not in the added part. -/
theorem Join_one_sided_rule (Equal : Column → Column → Bool) (jt : JoinType)
    (conds : List EqualCondition) (schema child0 child1 : Schema)
    (hjt : jt = .InnerJoin ∨ jt = .LeftOuterJoin ∨ jt = .RightOuterJoin) (hne : conds ≠ [])
    (hl : ∃ c ∈ conds, ∃ k, [k] ∈ child0.Keys ∧ Equal k c.ln = true)
    (hr : ¬ ∃ c ∈ conds, ∃ k, [k] ∈ child1.Keys ∧ Equal k c.rn = true) :
    (Join.buildKeyInfo Equal jt conds schema child0 child1).Keys = schema.Keys ++ child1.Keys
    ∧ (Join.buildKeyInfo Equal jt conds schema child0 child1).Keys.drop schema.Keys.length
        = child1.Keys
    ∧ ∀ key ∈ child0.Keys, key ∉ child1.Keys →
        key ∉ (Join.buildKeyInfo Equal jt conds schema child0 child1).Keys.drop
          schema.Keys.length := by
  have h1 := (Join.condLoop_fst Equal child0.Keys child1.Keys conds false false).2 (Or.inr hl)
  have h2 : (Join.condLoop Equal child0.Keys child1.Keys conds false false).2 = false := by
    cases h : (Join.condLoop Equal child0.Keys child1.Keys conds false false).2 with
    | false => rfl
    | true =>
      rcases (Join.condLoop_snd Equal child0.Keys child1.Keys conds false false).1 h with h3 | h3
      · exact absurd h3 (by decide)
      · exact absurd h3 hr
  have hkeys : (Join.buildKeyInfo Equal jt conds schema child0 child1).Keys
      = schema.Keys ++ child1.Keys := by
    rw [Join.buildKeyInfo_keys Equal jt conds schema child0 child1 hjt hne, h1, h2]
    simp
  refine ⟨hkeys, ?_, ?_⟩
  · rw [hkeys]
    simp
  · intro key _ hnot
    rw [hkeys]
    simpa using hnot

/-- C7 at the left-outer join of `L` (key `{L.id}`) and `R` (key `{R.id}`) on
`L.id = R.fk`: the join's key groups are exactly `{R.id}`. -/
theorem Join_one_sided_rule_witness :
    (∃ c ∈ [condIdFk], ∃ k, [k] ∈ leftL.Keys ∧ sameColumn k c.ln = true)
    ∧ (¬ ∃ c ∈ [condIdFk], ∃ k, [k] ∈ rightR.Keys ∧ sameColumn k c.rn = true)
    ∧ (Join.buildKeyInfo sameColumn .LeftOuterJoin [condIdFk] joinLR leftL rightR).Keys
        = joinLR.Keys ++ rightR.Keys :=
  ⟨⟨condIdFk, by simp, mkCol "L" 0 "id", by simp [leftL], by decide⟩,
   by simp [rightR, condIdFk, sameColumn, mkCol],
   (Join_one_sided_rule sameColumn .LeftOuterJoin [condIdFk] joinLR leftL rightR
      (Or.inr (Or.inl rfl)) (by simp)
      ⟨condIdFk, by simp, mkCol "L" 0 "id", by simp [leftL], by decide⟩
      (by simp [rightR, condIdFk, sameColumn, mkCol])).1⟩

/-- C8: for a Join of kind SemiJoin or SemiJoinWithAux, whatever its equality conditions,
the key groups it had and the inner child, the key-group list after `buildKeyInfo` is the
outer child's key-group list, and the columns of the Join's schema are unchanged. -/
theorem Join_semi_rule (Equal : Column → Column → Bool) (conds : List EqualCondition)
    (schema child0 child1 : Schema) :
    Join.buildKeyInfo Equal .SemiJoin conds schema child0 child1
        = { Columns := schema.Columns, Keys := child0.Keys }
    ∧ Join.buildKeyInfo Equal .SemiJoinWithAux conds schema child0 child1
        = { Columns := schema.Columns, Keys := child0.Keys } :=
  ⟨rfl, rfl⟩

/-! ### DataSource -/

theorem DataSource.findLoop_eq (idxCol : IndexColumn) (cols : List Column) (newKey : KeyInfo)
    (find : Bool) :
    DataSource.findLoop idxCol cols newKey find =
      match firstMatch cols idxCol with
      | some c => (newKey ++ [c], true)
      | none => (newKey, find) := by
  induction cols with
  | nil => rfl
  | cons col rest ih =>
    by_cases h : idxCol.Name.L = col.ColName.L
    · simp [DataSource.findLoop, firstMatch, h]
    · simp only [DataSource.findLoop, h, if_false, ih]
      simp [firstMatch, h]

theorem firstMatch_eq_none (cols : List Column) (ic : IndexColumn) :
    firstMatch cols ic = none ↔ ∀ c ∈ cols, ic.Name.L ≠ c.ColName.L := by
  simp [firstMatch]

theorem firstMatch_eq_some (cols : List Column) (ic : IndexColumn) (c : Column)
    (h : firstMatch cols ic = some c) : c ∈ cols ∧ ic.Name.L = c.ColName.L := by
  unfold firstMatch at h
  exact ⟨List.mem_of_find?_eq_some h, by simpa using List.find?_some h⟩

theorem DataSource.idxColLoop_found (cols : List Column) (ics : List IndexColumn)
    (newKey : KeyInfo) (ok : Bool)
    (hall : ∀ ic ∈ ics, ∃ c ∈ cols, ic.Name.L = c.ColName.L) :
    DataSource.idxColLoop cols ics newKey ok = (newKey ++ ics.filterMap (firstMatch cols), ok) := by
  induction ics generalizing newKey with
  | nil => simp [DataSource.idxColLoop]
  | cons ic rest ih =>
    obtain ⟨c, hc, hname⟩ := hall ic (by simp)
    cases hfm : firstMatch cols ic with
    | none => exact absurd hname ((firstMatch_eq_none cols ic).1 hfm c hc)
    | some c2 =>
      simp only [DataSource.idxColLoop, DataSource.findLoop_eq, hfm]
      rw [List.filterMap_cons_some hfm]
      simp only [Bool.not_true]
      rw [if_neg (by decide), ih _ (fun ic2 h2 => hall ic2 (List.mem_cons_of_mem _ h2))]
      simp

theorem DataSource.idxColLoop_missing (cols : List Column) (ics : List IndexColumn)
    (newKey : KeyInfo) (ok : Bool)
    (hmiss : ∃ ic ∈ ics, ∀ c ∈ cols, ic.Name.L ≠ c.ColName.L) :
    (DataSource.idxColLoop cols ics newKey ok).2 = false := by
  induction ics generalizing newKey with
  | nil => simp at hmiss
  | cons ic rest ih =>
    cases hfm : firstMatch cols ic with
    | none => simp [DataSource.idxColLoop, DataSource.findLoop_eq, hfm]
    | some c2 =>
      simp only [DataSource.idxColLoop, DataSource.findLoop_eq, hfm, Bool.not_true]
      rw [if_neg (by decide)]
      apply ih
      obtain ⟨ic2, h2, h3⟩ := hmiss
      rcases List.mem_cons.1 h2 with h4 | h4
      · subst h4
        have := (firstMatch_eq_some cols ic2 c2 hfm)
        exact absurd this.2 (h3 c2 this.1)
      · exact ⟨ic2, h4, h3⟩

theorem DataSource.indexLoop_eq (cols : List Column) (indices : List IndexInfo)
    (keys : List KeyInfo) :
    DataSource.indexLoop cols indices keys = keys ++ indices.filterMap (uniqueIndexKey cols) := by
  induction indices generalizing keys with
  | nil => simp [DataSource.indexLoop]
  | cons idx rest ih =>
    cases hu : idx.Unique with
    | false =>
      have hnone : uniqueIndexKey cols idx = none := by simp [uniqueIndexKey, hu]
      simp only [DataSource.indexLoop, hu, Bool.not_false, if_true, ih]
      rw [List.filterMap_cons_none hnone]
    | true =>
      by_cases hall : ∀ ic ∈ idx.Columns, ∃ c ∈ cols, ic.Name.L = c.ColName.L
      · have hsome : uniqueIndexKey cols idx = some (idx.Columns.filterMap (firstMatch cols)) := by
          simp only [uniqueIndexKey, hu, true_and]
          rw [if_pos hall]
        simp only [DataSource.indexLoop, hu, Bool.not_true,
          DataSource.idxColLoop_found cols idx.Columns [] true hall]
        rw [if_neg (by decide), if_pos trivial, ih, List.filterMap_cons_some hsome]
        simp
      · have hnone : uniqueIndexKey cols idx = none := by
          simp only [uniqueIndexKey, hu, true_and]
          rw [if_neg hall]
        have hmiss : ∃ ic ∈ idx.Columns, ∀ c ∈ cols, ic.Name.L ≠ c.ColName.L := by
          by_contra hcon
          apply hall
          intro ic hic
          by_contra hno
          exact hcon ⟨ic, hic, fun c hc heq => hno ⟨c, hc, heq⟩⟩
        simp only [DataSource.indexLoop, hu, Bool.not_true,
          DataSource.idxColLoop_missing cols idx.Columns [] true hmiss]
        rw [if_neg (by decide), if_neg (by decide), ih, List.filterMap_cons_none hnone]

theorem firstMatch_forall₂ (cols : List Column) (ics : List IndexColumn)
    (hall : ∀ ic ∈ ics, ∃ c ∈ cols, ic.Name.L = c.ColName.L) :
    List.Forall₂ (fun ic c => c ∈ cols ∧ ic.Name.L = c.ColName.L ∧ firstMatch cols ic = some c)
      ics (ics.filterMap (firstMatch cols)) := by
  induction ics with
  | nil => exact List.Forall₂.nil
  | cons ic rest ih =>
    obtain ⟨c, hc, hname⟩ := hall ic (by simp)
    cases hfm : firstMatch cols ic with
    | none => exact absurd hname ((firstMatch_eq_none cols ic).1 hfm c hc)
    | some c2 =>
      rw [List.filterMap_cons_some hfm]
      have h2 := firstMatch_eq_some cols ic c2 hfm
      exact List.Forall₂.cons ⟨h2.1, h2.2, hfm⟩
        (ih (fun ic2 h3 => hall ic2 (List.mem_cons_of_mem _ h3)))

theorem DataSource.pkLoop_none_flagged (HasPriKeyFlag : Nat → Bool) (schemaCols : List Column)
    (Columns : List ColumnInfo) (i : Nat) (keys : List KeyInfo)
    (hno : ∀ col ∈ Columns, HasPriKeyFlag col.Flag = false) :
    DataSource.pkLoop HasPriKeyFlag schemaCols Columns i keys = some keys := by
  induction Columns generalizing i with
  | nil => rfl
  | cons col rest ih =>
    have h1 : HasPriKeyFlag col.Flag = false := hno col (by simp)
    simp only [DataSource.pkLoop, h1]
    exact ih (i + 1) (fun c hc => hno c (List.mem_cons_of_mem _ hc))

theorem DataSource.pkLoop_first_flagged (HasPriKeyFlag : Nat → Bool) (schemaCols : List Column)
    (pre post : List ColumnInfo) (col : ColumnInfo) (i : Nat) (keys : List KeyInfo)
    (hpre : ∀ c ∈ pre, HasPriKeyFlag c.Flag = false) (hcol : HasPriKeyFlag col.Flag = true) :
    DataSource.pkLoop HasPriKeyFlag schemaCols (pre ++ col :: post) i keys =
      (schemaCols[i + pre.length]?).map fun c => keys ++ [[c]] := by
  induction pre generalizing i with
  | nil =>
    simp only [List.nil_append, DataSource.pkLoop, hcol, if_true, List.length_nil, Nat.add_zero]
    cases schemaCols[i]? <;> rfl
  | cons c rest ih =>
    have h1 : HasPriKeyFlag c.Flag = false := hpre c (by simp)
    have h2 := ih (i + 1) (fun c2 hc => hpre c2 (List.mem_cons_of_mem _ hc))
    have h3 : i + 1 + rest.length = i + (rest.length + 1) := by omega
    rw [h3] at h2
    show DataSource.pkLoop HasPriKeyFlag schemaCols (c :: (rest ++ col :: post)) i keys = _
    simp only [DataSource.pkLoop, h1, List.length_cons]
    exact h2

theorem DataSource.pkLoop_adds_at_most_one (HasPriKeyFlag : Nat → Bool)
    (schemaCols : List Column) (Columns : List ColumnInfo) (i : Nat) (keys keys2 : List KeyInfo)
    (h : DataSource.pkLoop HasPriKeyFlag schemaCols Columns i keys = some keys2) :
    keys2 = keys ∨ ∃ c ∈ schemaCols, keys2 = keys ++ [[c]] := by
  induction Columns generalizing i with
  | nil =>
    simp only [DataSource.pkLoop, Option.some.injEq] at h
    exact Or.inl h.symm
  | cons col rest ih =>
    cases hf : HasPriKeyFlag col.Flag with
    | false =>
      simp only [DataSource.pkLoop, hf] at h
      exact ih (i + 1) h
    | true =>
      simp only [DataSource.pkLoop, hf, if_true] at h
      cases hc : schemaCols[i]? with
      | none => simp [hc] at h
      | some c =>
        simp only [hc, Option.some.injEq] at h
        exact Or.inr ⟨c, List.getElem?_mem hc, h.symm⟩

/-- C9: the index loop of `DataSource.buildKeyInfo` appends, in index order, one key group
for every index that is unique and whose columns are all found in the output schema by
lower-cased name, and nothing for any other index (`uniqueIndexKey`). For such an index the
key group pairs off with the index columns in declaration order: its j-th column is the
first schema column whose lower-cased name is that of the j-th index column. A non-unique
index, or an index with a column matching no schema column, gives no key group. Without
`PKIsHandle` these are all the key groups added; with it, at most one more group follows. -/
theorem DataSource_unique_index_rule (HasPriKeyFlag : Nat → Bool) (indices : List IndexInfo)
    (Columns : List ColumnInfo) (schema : Schema) :
    DataSource.indexLoop schema.Columns indices schema.Keys
        = schema.Keys ++ indices.filterMap (uniqueIndexKey schema.Columns)
    ∧ DataSource.buildKeyInfo HasPriKeyFlag indices false Columns schema
        = some { Columns := schema.Columns,
                 Keys := schema.Keys ++ indices.filterMap (uniqueIndexKey schema.Columns) }
    ∧ (∀ s, DataSource.buildKeyInfo HasPriKeyFlag indices true Columns schema = some s →
        ∃ pk, pk.length ≤ 1 ∧
          s.Keys = schema.Keys ++ indices.filterMap (uniqueIndexKey schema.Columns) ++ pk)
    ∧ (∀ idx, idx.Unique = true →
        (∀ ic ∈ idx.Columns, ∃ c ∈ schema.Columns, ic.Name.L = c.ColName.L) →
        ∃ key, uniqueIndexKey schema.Columns idx = some key ∧
          List.Forall₂
            (fun ic c => c ∈ schema.Columns ∧ ic.Name.L = c.ColName.L
              ∧ firstMatch schema.Columns ic = some c)
            idx.Columns key)
    ∧ (∀ idx, (idx.Unique = false ∨
          ∃ ic ∈ idx.Columns, ∀ c ∈ schema.Columns, ic.Name.L ≠ c.ColName.L) →
        uniqueIndexKey schema.Columns idx = none) := by
  refine ⟨DataSource.indexLoop_eq _ _ _, ?_, ?_, ?_, ?_⟩
  · simp [DataSource.buildKeyInfo, DataSource.indexLoop_eq]
  · intro s hs
    simp only [DataSource.buildKeyInfo, DataSource.indexLoop_eq, if_true] at hs
    cases hpk : DataSource.pkLoop HasPriKeyFlag schema.Columns Columns 0
        (schema.Keys ++ indices.filterMap (uniqueIndexKey schema.Columns)) with
    | none => simp [hpk] at hs
    | some keys2 =>
      simp only [hpk, Option.some.injEq] at hs
      subst hs
      rcases DataSource.pkLoop_adds_at_most_one _ _ _ _ _ _ hpk with h | ⟨c, _, h⟩
      · exact ⟨[], by simp, by simp [h]⟩
      · exact ⟨[[c]], by simp, by simp [h]⟩
  · intro idx hu hall
    refine ⟨idx.Columns.filterMap (firstMatch schema.Columns), ?_,
      firstMatch_forall₂ schema.Columns idx.Columns hall⟩
    simp only [uniqueIndexKey, hu, true_and]
    rw [if_pos hall]
  · intro idx h
    rcases h with h | ⟨ic, hic, hno⟩
    · simp [uniqueIndexKey, h]
    · simp only [uniqueIndexKey]
      rw [if_neg]
      rintro ⟨_, hall⟩
      obtain ⟨c, hc, heq⟩ := hall ic hic
      exact hno c hc heq

/-- C9 on the table `t(id, name)`: of its three indices only the unique index on
`(name, id)` gives a key group, `{t.name, t.id}`, in index-declaration order. -/
theorem DataSource_unique_index_rule_witness :
    DataSource.buildKeyInfo priKeyBit tableTIndices false tableTColumns tableT
      = some { Columns := tableT.Columns, Keys := [[mkCol "t" 1 "name", mkCol "t" 0 "id"]] } := by
  rw [(DataSource_unique_index_rule priKeyBit tableTIndices tableTColumns tableT).2.1]
  decide

/-- C10: let `keys1` be the key groups after the index loop. Without `PKIsHandle`,
`DataSource.buildKeyInfo` adds nothing to them. With `PKIsHandle`, it adds nothing when no
entry of `p.Columns` carries the primary-key flag; and when the first flagged entry is at
position `n`, it adds the single group `{p.schema.Columns[n]}` and stops, provided `n` is a
valid index of the schema (otherwise the index expression faults). -/
theorem DataSource_primary_key_rule (HasPriKeyFlag : Nat → Bool) (indices : List IndexInfo)
    (Columns : List ColumnInfo) (schema : Schema) :
    DataSource.buildKeyInfo HasPriKeyFlag indices false Columns schema
        = some { Columns := schema.Columns,
                 Keys := DataSource.indexLoop schema.Columns indices schema.Keys }
    ∧ ((∀ col ∈ Columns, HasPriKeyFlag col.Flag = false) →
        DataSource.buildKeyInfo HasPriKeyFlag indices true Columns schema
          = some { Columns := schema.Columns,
                   Keys := DataSource.indexLoop schema.Columns indices schema.Keys })
    ∧ (∀ pre col post, Columns = pre ++ col :: post →
        (∀ c ∈ pre, HasPriKeyFlag c.Flag = false) → HasPriKeyFlag col.Flag = true →
        (∀ c, schema.Columns[pre.length]? = some c →
          DataSource.buildKeyInfo HasPriKeyFlag indices true Columns schema
            = some { Columns := schema.Columns,
                     Keys := DataSource.indexLoop schema.Columns indices schema.Keys ++ [[c]] })
        ∧ (schema.Columns.length ≤ pre.length →
          DataSource.buildKeyInfo HasPriKeyFlag indices true Columns schema = none)) := by
  refine ⟨by simp [DataSource.buildKeyInfo], fun hno => ?_, ?_⟩
  · simp only [DataSource.buildKeyInfo, if_true,
      DataSource.pkLoop_none_flagged HasPriKeyFlag schema.Columns Columns 0 _ hno]
  · intro pre col post hC hpre hcol
    subst hC
    have hpk := DataSource.pkLoop_first_flagged HasPriKeyFlag schema.Columns pre post col 0
      (DataSource.indexLoop schema.Columns indices schema.Keys) hpre hcol
    rw [Nat.zero_add] at hpk
    refine ⟨fun c hc => ?_, fun hlen => ?_⟩
    · simp only [DataSource.buildKeyInfo, if_true, hpk, hc, Option.map_some']
    · have hnone : schema.Columns[pre.length]? = none := List.getElem?_eq_none hlen
      simp only [DataSource.buildKeyInfo, if_true, hpk, hnone, Option.map_none']

/-- C10 on the table `t(id, name)` with `PKIsHandle`: the first flagged entry of the column
list is `id` at position 0, and the one group added is `{t.id}`. -/
theorem DataSource_primary_key_rule_witness :
    (∀ c ∈ ([] : List ColumnInfo), priKeyBit c.Flag = false)
    ∧ priKeyBit 2 = true
    ∧ DataSource.buildKeyInfo priKeyBit [] true tableTColumns tableT
        = some { Columns := tableT.Columns,
                 Keys := DataSource.indexLoop tableT.Columns [] tableT.Keys
                   ++ [[mkCol "t" 0 "id"]] } :=
  ⟨by simp, by decide,
   ((DataSource_primary_key_rule priKeyBit [] tableTColumns tableT).2.2 []
      { Name := ⟨"id", "id"⟩, Flag := 2 } [{ Name := ⟨"name", "name"⟩, Flag := 0 }] rfl
      (by simp) (by decide)).1 (mkCol "t" 0 "id") rfl⟩

/-! ### Auxiliary schemas of Aggregation and Projection -/

theorem GetColumnIndexFrom_nonneg (col : Column) (cs : List Column) (i : Nat)
    (h : GetColumnIndexFrom col cs i ≠ -1) :
    0 ≤ GetColumnIndexFrom col cs i ∧ (GetColumnIndexFrom col cs i).toNat < i + cs.length := by
  rcases GetColumnIndexFrom_range col cs i with h1 | ⟨k, hk, h1⟩
  · exact absurd h1 h
  · rw [h1]
    constructor
    · exact Int.ofNat_nonneg _
    · simp only [Int.toNat_ofNat]
      omega

theorem GetColumnIndexFrom_shift (col : Column) (cs : List Column) (i j : Nat)
    (h : GetColumnIndexFrom col cs i = -1) : GetColumnIndexFrom col cs j = -1 := by
  induction cs generalizing i j with
  | nil => rfl
  | cons c cs ih =>
    simp only [GetColumnIndexFrom] at h ⊢
    split at h
    · exact absurd h (by omega)
    · next hne =>
      rw [if_neg hne]
      exact ih (i + 1) (j + 1) h

theorem GetColumnIndexFrom_append (col : Column) (a b : List Column) (i : Nat) :
    GetColumnIndexFrom col (a ++ b) i =
      if GetColumnIndexFrom col a i ≠ -1 then GetColumnIndexFrom col a i
      else GetColumnIndexFrom col b (i + a.length) := by
  induction a generalizing i with
  | nil => simp [GetColumnIndexFrom]
  | cons c a ih =>
    show GetColumnIndexFrom col (c :: (a ++ b)) i = _
    simp only [GetColumnIndexFrom]
    split
    · rw [if_pos (by omega)]
    · rw [ih (i + 1)]
      simp only [List.length_cons]
      have : i + 1 + a.length = i + (a.length + 1) := by omega
      rw [this]

theorem GetColumnIndexFrom_doubled (col : Column) (a : List Column) :
    GetColumnIndexFrom col (a ++ a) 0 = GetColumnIndexFrom col a 0 := by
  rw [GetColumnIndexFrom_append]
  split
  · rfl
  · next h =>
    have h1 : GetColumnIndexFrom col a 0 = -1 := by
      by_contra hne
      exact h hne
    rw [h1]
    exact GetColumnIndexFrom_shift col a 0 _ h1

theorem GetColumnsIndicesLoop_eq (s : Schema) (key : List Column) (ret : List Int) :
    GetColumnsIndicesLoop s key ret =
      if ∀ col ∈ key, s.GetColumnIndex col ≠ -1 then some (ret ++ key.map s.GetColumnIndex)
      else none := by
  induction key generalizing ret with
  | nil => simp [GetColumnsIndicesLoop]
  | cons col rest ih =>
    simp only [GetColumnsIndicesLoop]
    by_cases hc : s.GetColumnIndex col = -1
    · rw [if_neg (by simpa using hc), if_neg]
      intro hall
      exact hall col (by simp) hc
    · rw [if_pos hc, ih]
      by_cases hall : ∀ c ∈ rest, s.GetColumnIndex c ≠ -1
      · rw [if_pos hall, if_pos]
        · simp
        · intro c hcm
          rcases List.mem_cons.1 hcm with h1 | h1
          · rw [h1]; exact hc
          · exact hall c h1
      · rw [if_neg hall, if_neg]
        intro h2
        exact hall (fun c hcm => h2 c (List.mem_cons_of_mem _ hcm))

theorem GetColumnsIndices_congr (s1 s2 : Schema)
    (h : ∀ col, s1.GetColumnIndex col = s2.GetColumnIndex col) (key : List Column) :
    s1.GetColumnsIndices key = s2.GetColumnsIndices key := by
  have hfun : s1.GetColumnIndex = s2.GetColumnIndex := funext h
  simp only [Schema.GetColumnsIndices, GetColumnsIndicesLoop_eq, hfun]

theorem auxKeysLoop_congr (s1 s2 : Schema)
    (h : ∀ col, s1.GetColumnIndex col = s2.GetColumnIndex col) (own : List Column)
    (childKeys keys : List KeyInfo) :
    auxKeysLoop s1 own childKeys keys = auxKeysLoop s2 own childKeys keys := by
  induction childKeys generalizing keys with
  | nil => rfl
  | cons key rest ih =>
    simp only [auxKeysLoop, GetColumnsIndices_congr s1 s2 h key]
    cases s2.GetColumnsIndices key with
    | none => exact ih keys
    | some indices =>
      simp only
      cases newKeyLoop own indices [] with
      | none => rfl
      | some newKey => exact ih _

theorem newKeyLoop_eq (own : List Column) (indices : List Int) (newKey : KeyInfo)
    (h : ∀ i ∈ indices, 0 ≤ i ∧ i.toNat < own.length) :
    newKeyLoop own indices newKey
      = some (newKey ++ indices.filterMap fun i => own[i.toNat]?) := by
  induction indices generalizing newKey with
  | nil => simp [newKeyLoop]
  | cons i rest ih =>
    obtain ⟨h0, hlt⟩ := h i (by simp)
    have hget : own[i.toNat]? = some own[i.toNat] := List.getElem?_eq_getElem hlt
    simp only [newKeyLoop]
    rw [if_neg (by omega), hget]
    simp only
    rw [ih _ (fun j hj => h j (List.mem_cons_of_mem _ hj))]
    have hfm : List.filterMap (fun i => own[i.toNat]?) (i :: rest)
        = own[i.toNat] :: List.filterMap (fun i => own[i.toNat]?) rest :=
      List.filterMap_cons_some hget
    rw [hfm]
    simp

theorem Schema.Append_Columns (s : Schema) (col : Column) :
    (s.Append col).Columns = s.Columns ++ [col] := rfl

theorem Aggregation.funcLoop_Columns (fs : List AggregationFunction) (s : Schema) :
    (Aggregation.funcLoop fs s).Columns
      = s.Columns ++ (fs.map Aggregation.passThrough).map fun o => o.getD placeholderColumn := by
  induction fs generalizing s with
  | nil => simp [Aggregation.funcLoop]
  | cons f rest ih =>
    cases hf : f.Arg0 with
    | NotColumn t =>
      simp only [Aggregation.funcLoop, hf, ih, Schema.Append_Columns, List.map_cons,
        Aggregation.passThrough, Option.getD_none, List.append_assoc, List.singleton_append]
    | Column col =>
      by_cases hn : f.Name = AggFuncFirstRow
      · simp only [Aggregation.funcLoop, hf, hn, if_true, ih, Schema.Append_Columns,
          List.map_cons, Aggregation.passThrough, Option.getD_some, List.append_assoc,
          List.singleton_append]
      · simp only [Aggregation.funcLoop, hf, hn, if_false, ih, Schema.Append_Columns,
          List.map_cons, Aggregation.passThrough, Option.getD_none, List.append_assoc,
          List.singleton_append]

theorem Projection.exprLoop_Columns (es : List Expression) (s : Schema) :
    (Projection.exprLoop es s).Columns
      = s.Columns ++ (es.map Projection.passThrough).map fun o => o.getD placeholderColumn := by
  induction es generalizing s with
  | nil => simp [Projection.exprLoop]
  | cons e rest ih =>
    cases e with
    | NotColumn t =>
      simp only [Projection.exprLoop, ih, Schema.Append_Columns, List.map_cons,
        Projection.passThrough, Option.getD_none, List.append_assoc, List.singleton_append]
    | Column col =>
      simp only [Projection.exprLoop, ih, Schema.Append_Columns, List.map_cons,
        Projection.passThrough, Option.getD_some, List.append_assoc, List.singleton_append]

theorem GetColumnIndexFrom_slots (col : Column) (hreal : isRealColumn col)
    (slots : List (Option Column)) (i : Nat) :
    GetColumnIndexFrom col (slots.map fun o => o.getD placeholderColumn) i =
      match passThroughPosition col slots i with
      | some j => (j : Int)
      | none => -1 := by
  induction slots generalizing i with
  | nil => rfl
  | cons o rest ih =>
    cases o with
    | none =>
      have hph : ¬ (placeholderColumn.FromID = col.FromID
          ∧ placeholderColumn.Position = col.Position) := by
        rintro ⟨h1, h2⟩
        exact hreal ⟨h1.symm, h2.symm⟩
      simp only [List.map_cons, Option.getD_none, GetColumnIndexFrom, passThroughPosition]
      rw [if_neg hph]
      exact ih (i + 1)
    | some c =>
      simp only [List.map_cons, Option.getD_some, GetColumnIndexFrom, passThroughPosition]
      split
      · rfl
      · exact ih (i + 1)

theorem translateKey_eq (slots : List (Option Column)) (own : List Column)
    (hlen : own.length = slots.length) (aux : Schema)
    (haux : aux.Columns = slots.map fun o => o.getD placeholderColumn)
    (key : KeyInfo) (hreal : ∀ col ∈ key, isRealColumn col) :
    translateKey slots own key =
      if ∀ col ∈ key, aux.GetColumnIndex col ≠ -1 then
        some (key.filterMap fun col => own[(aux.GetColumnIndex col).toNat]?)
      else none := by
  induction key with
  | nil => simp [translateKey]
  | cons col rest ih =>
    have hcol := GetColumnIndexFrom_slots col (hreal col (by simp)) slots 0
    have hidx : aux.GetColumnIndex col
        = GetColumnIndexFrom col (slots.map fun o => o.getD placeholderColumn) 0 := by
      rw [Schema.GetColumnIndex, haux]
    have ih2 := ih (fun c hc => hreal c (List.mem_cons_of_mem _ hc))
    cases hp : passThroughPosition col slots 0 with
    | none =>
      rw [hp] at hcol
      simp only [translateKey, hp]
      rw [if_neg]
      intro hall
      exact hall col (by simp) (hidx.trans hcol)
    | some j =>
      rw [hp] at hcol
      have hj : aux.GetColumnIndex col = (j : Int) := hidx.trans hcol
      have hne : aux.GetColumnIndex col ≠ -1 := by rw [hj]; omega
      have hlt : j < own.length := by
        have h1 := GetColumnIndexFrom_nonneg col aux.Columns 0 hne
        have h2 : (aux.GetColumnIndex col).toNat = j := by rw [hj]; rfl
        rw [Schema.GetColumnIndex] at h2
        rw [h2, haux, List.length_map] at h1
        omega
      have hget : own[j]? = some own[j] := List.getElem?_eq_getElem hlt
      have hget2 : own[(aux.GetColumnIndex col).toNat]? = some own[j] := by
        rw [hj]
        exact hget
      simp only [translateKey, hp, hget, ih2]
      by_cases hall : ∀ c ∈ rest, aux.GetColumnIndex c ≠ -1
      · rw [if_pos hall, if_pos]
        · have hfm : List.filterMap (fun col => own[(aux.GetColumnIndex col).toNat]?)
              (col :: rest) = own[j] ::
                List.filterMap (fun col => own[(aux.GetColumnIndex col).toNat]?) rest :=
            List.filterMap_cons_some hget2
          rw [hfm]
        · intro c hc
          rcases List.mem_cons.1 hc with h1 | h1
          · rw [h1]; exact hne
          · exact hall c h1
      · rw [if_neg hall, if_neg]
        intro h2
        exact hall (fun c hc => h2 c (List.mem_cons_of_mem _ hc))

theorem auxKeysLoop_eq (slots : List (Option Column)) (own : List Column)
    (hlen : own.length = slots.length) (aux : Schema)
    (haux : aux.Columns = slots.map fun o => o.getD placeholderColumn)
    (childKeys : List KeyInfo) (hreal : ∀ key ∈ childKeys, ∀ col ∈ key, isRealColumn col)
    (keys : List KeyInfo) :
    auxKeysLoop aux own childKeys keys
      = some (keys ++ childKeys.filterMap (translateKey slots own)) := by
  induction childKeys generalizing keys with
  | nil => simp [auxKeysLoop]
  | cons key rest ih =>
    have ht := translateKey_eq slots own hlen aux haux key (hreal key (by simp))
    have ih2 := fun ks => ih (fun k hk => hreal k (List.mem_cons_of_mem _ hk)) ks
    simp only [auxKeysLoop, Schema.GetColumnsIndices, GetColumnsIndicesLoop_eq]
    by_cases hall : ∀ col ∈ key, aux.GetColumnIndex col ≠ -1
    · rw [if_pos hall] at ht ⊢
      have hvalid : ∀ i ∈ [] ++ key.map aux.GetColumnIndex, 0 ≤ i ∧ i.toNat < own.length := by
        intro i hi
        simp only [List.nil_append, List.mem_map] at hi
        obtain ⟨c, hc, rfl⟩ := hi
        have h1 := GetColumnIndexFrom_nonneg c aux.Columns 0 (hall c hc)
        rw [haux, List.length_map, ← hlen] at h1
        rw [Schema.GetColumnIndex, haux]
        omega
      simp only
      rw [newKeyLoop_eq own _ [] hvalid]
      simp only [List.nil_append, List.filterMap_map]
      rw [ih2, List.filterMap_cons_some ht]
      simp only [List.append_assoc, List.singleton_append]
      rfl
    · rw [if_neg hall] at ht ⊢
      simp only
      rw [ih2, List.filterMap_cons_none ht]

theorem GetColumnIndexFrom_find (col : Column) (g : List Column) (i : Nat) :
    (GetColumnIndexFrom col g i = -1 ∨
      ∃ k, k < g.length ∧ GetColumnIndexFrom col g i = ((i + k : Nat) : Int)
        ∧ g[k]? = g.find? fun c => decide (c.FromID = col.FromID ∧ c.Position = col.Position)) := by
  induction g generalizing i with
  | nil => exact Or.inl rfl
  | cons c g ih =>
    simp only [GetColumnIndexFrom]
    by_cases hc : c.FromID = col.FromID ∧ c.Position = col.Position
    · rw [if_pos hc]
      refine Or.inr ⟨0, by simp, by simp, ?_⟩
      simp [List.find?_cons, hc]
    · rw [if_neg hc]
      rcases ih (i + 1) with h | ⟨k, hk, h1, h2⟩
      · exact Or.inl h
      · refine Or.inr ⟨k + 1, by simp; omega, ?_, ?_⟩
        · rw [h1]
          congr 1
          omega
        · simp only [List.getElem?_cons_succ, h2, List.find?_cons]
          simp [hc]

theorem filterMap_congr_mem {α β : Type} (f g : α → Option β) (l : List α)
    (h : ∀ x ∈ l, f x = g x) : l.filterMap f = l.filterMap g := by
  induction l with
  | nil => rfl
  | cons a l ih =>
    have ha := h a (by simp)
    have ih2 := ih (fun x hx => h x (List.mem_cons_of_mem _ hx))
    cases hfa : f a with
    | none =>
      rw [List.filterMap_cons_none hfa, List.filterMap_cons_none (ha ▸ hfa), ih2]
    | some b =>
      rw [List.filterMap_cons_some hfa, List.filterMap_cons_some (ha ▸ hfa), ih2]

theorem Aggregation.groupbyLoop_eq (groupByCols : List Column) (childKeys keys : List KeyInfo) :
    Aggregation.groupbyLoop (NewSchema groupByCols) childKeys keys
      = some (keys ++ groupByKey groupByCols childKeys) := by
  induction childKeys generalizing keys with
  | nil => simp [Aggregation.groupbyLoop, groupByKey]
  | cons key rest ih =>
    simp only [Aggregation.groupbyLoop, Schema.GetColumnsIndices, GetColumnsIndicesLoop_eq]
    by_cases hall : ∀ col ∈ key, (NewSchema groupByCols).GetColumnIndex col ≠ -1
    · rw [if_pos hall]
      have hvalid : ∀ i ∈ [] ++ key.map (NewSchema groupByCols).GetColumnIndex,
          0 ≤ i ∧ i.toNat < (NewSchema groupByCols).Columns.length := by
        intro i hi
        simp only [List.nil_append, List.mem_map] at hi
        obtain ⟨c, hc, rfl⟩ := hi
        have h1 := GetColumnIndexFrom_nonneg c (NewSchema groupByCols).Columns 0 (hall c hc)
        rw [Schema.GetColumnIndex]
        omega
      simp only
      rw [newKeyLoop_eq _ _ [] hvalid]
      have hfind : List.find? (fun key => key.all fun col =>
          decide ((NewSchema groupByCols).GetColumnIndex col ≠ -1)) (key :: rest) = some key := by
        rw [List.find?_cons]
        have : (key.all fun col => decide ((NewSchema groupByCols).GetColumnIndex col ≠ -1))
            = true := by
          rw [List.all_eq_true]
          intro c hc
          exact decide_eq_true (hall c hc)
        rw [this]
      simp only [groupByKey, hfind, List.nil_append, List.filterMap_map]
      congr 3
      apply filterMap_congr_mem
      intro col hcol
      rcases GetColumnIndexFrom_find col groupByCols 0 with h | ⟨k, _, h1, h2⟩
      · exact absurd h (hall col hcol)
      · simp only [Function.comp, Schema.GetColumnIndex, NewSchema, h1, Nat.zero_add,
          Int.toNat_ofNat]
        exact h2
    · rw [if_neg hall]
      have hfind : List.find? (fun key => key.all fun col =>
          decide ((NewSchema groupByCols).GetColumnIndex col ≠ -1)) (key :: rest)
            = List.find? (fun key => key.all fun col =>
                decide ((NewSchema groupByCols).GetColumnIndex col ≠ -1)) rest := by
        rw [List.find?_cons]
        have : (key.all fun col => decide ((NewSchema groupByCols).GetColumnIndex col ≠ -1))
            = false := by
          rw [Bool.eq_false_iff]
          intro ht
          rw [List.all_eq_true] at ht
          exact hall (fun c hc => of_decide_eq_true (ht c hc))
        rw [this]
      simp only
      rw [ih]
      simp only [groupByKey, hfind]

theorem passThroughPosition_eq_none (col : Column) (slots : List (Option Column)) (i : Nat) :
    passThroughPosition col slots i = none ↔
      ∀ c, some c ∈ slots → ¬ (c.FromID = col.FromID ∧ c.Position = col.Position) := by
  induction slots generalizing i with
  | nil => simp [passThroughPosition]
  | cons o rest ih =>
    cases o with
    | none =>
      simp only [passThroughPosition, ih, List.mem_cons]
      constructor
      · intro h c hc
        rcases hc with hc | hc
        · exact absurd hc (by simp)
        · exact h c hc
      · intro h c hc
        exact h c (Or.inr hc)
    | some c0 =>
      simp only [passThroughPosition]
      by_cases hc0 : c0.FromID = col.FromID ∧ c0.Position = col.Position
      · rw [if_pos hc0]
        constructor
        · intro h
          exact absurd h (by simp)
        · intro h
          exact absurd hc0 (h c0 (by simp))
      · rw [if_neg hc0, ih]
        constructor
        · intro h c hc
          rcases List.mem_cons.1 hc with hc | hc
          · have : c = c0 := by simpa using hc
            rw [this]
            exact hc0
          · exact h c hc
        · intro h c hc
          exact h c (List.mem_cons_of_mem _ hc)

theorem passThroughPosition_some (col : Column) (slots : List (Option Column)) (i j : Nat)
    (h : passThroughPosition col slots i = some j) :
    ∃ k c, j = i + k ∧ slots[k]? = some (some c)
      ∧ c.FromID = col.FromID ∧ c.Position = col.Position
      ∧ ∀ k2 c2, k2 < k → slots[k2]? = some (some c2) →
          ¬ (c2.FromID = col.FromID ∧ c2.Position = col.Position) := by
  induction slots generalizing i with
  | nil => simp [passThroughPosition] at h
  | cons o rest ih =>
    have hstep : passThroughPosition col rest (i + 1) = some j →
        (∀ c, o = some c → ¬ (c.FromID = col.FromID ∧ c.Position = col.Position)) →
        ∃ k c, j = i + k ∧ (o :: rest)[k]? = some (some c)
          ∧ c.FromID = col.FromID ∧ c.Position = col.Position
          ∧ ∀ k2 c2, k2 < k → (o :: rest)[k2]? = some (some c2) →
              ¬ (c2.FromID = col.FromID ∧ c2.Position = col.Position) := by
      intro h2 ho
      obtain ⟨k, c, hj, hk, h3, h4, h5⟩ := ih (i + 1) h2
      refine ⟨k + 1, c, by omega, by simpa using hk, h3, h4, ?_⟩
      intro k2 c2 hlt hget
      cases k2 with
      | zero =>
        simp only [List.getElem?_cons_zero, Option.some.injEq] at hget
        exact ho c2 hget
      | succ k3 =>
        simp only [List.getElem?_cons_succ] at hget
        exact h5 k3 c2 (by omega) hget
    cases o with
    | none =>
      simp only [passThroughPosition] at h
      exact hstep h (fun c hc => absurd hc (by simp))
    | some c0 =>
      simp only [passThroughPosition] at h
      by_cases hc0 : c0.FromID = col.FromID ∧ c0.Position = col.Position
      · rw [if_pos hc0] at h
        refine ⟨0, c0, ?_, by simp, hc0.1, hc0.2, ?_⟩
        · simp only [Option.some.injEq] at h
          omega
        · intro k2 c2 hlt
          omega
      · rw [if_neg hc0] at h
        exact hstep h (fun c hc => by
          have : c0 = c := by simpa using hc
          rw [← this]
          exact hc0)

theorem translateKey_of_all (slots : List (Option Column)) (own : List Column)
    (hlen : own.length = slots.length) (key : KeyInfo)
    (hall : ∀ col ∈ key, ∃ c, some c ∈ slots ∧ c.FromID = col.FromID ∧ c.Position = col.Position) :
    ∃ newKey, translateKey slots own key = some newKey ∧
      List.Forall₂ (fun col out => ∃ j, passThroughPosition col slots 0 = some j
        ∧ own[j]? = some out) key newKey := by
  induction key with
  | nil => exact ⟨[], rfl, List.Forall₂.nil⟩
  | cons col rest ih =>
    obtain ⟨t, ht, hf⟩ := ih (fun c hc => hall c (List.mem_cons_of_mem _ hc))
    obtain ⟨c, hc, hid⟩ := hall col (by simp)
    cases hp : passThroughPosition col slots 0 with
    | none => exact absurd hid ((passThroughPosition_eq_none col slots 0).1 hp c hc)
    | some j =>
      obtain ⟨k, c2, hj, hk, _⟩ := passThroughPosition_some col slots 0 j hp
      have hklt : k < slots.length := by
        by_contra hge
        rw [List.getElem?_eq_none (by omega)] at hk
        exact absurd hk (by simp)
      have hjlt : j < own.length := by omega
      have hget : own[j]? = some own[j] := List.getElem?_eq_getElem hjlt
      refine ⟨own[j] :: t, ?_, List.Forall₂.cons ⟨j, hp, hget⟩ hf⟩
      simp only [translateKey, hp, hget, ht]

theorem translateKey_of_missing (slots : List (Option Column)) (own : List Column)
    (key : KeyInfo)
    (hmiss : ∃ col ∈ key, ∀ c, some c ∈ slots →
      ¬ (c.FromID = col.FromID ∧ c.Position = col.Position)) :
    translateKey slots own key = none := by
  induction key with
  | nil => simp at hmiss
  | cons col rest ih =>
    obtain ⟨c, hc, hno⟩ := hmiss
    rcases List.mem_cons.1 hc with h1 | h1
    · subst h1
      have hp := (passThroughPosition_eq_none c slots 0).2 hno
      simp only [translateKey, hp]
    · have ih2 := ih ⟨c, h1, hno⟩
      simp only [translateKey, ih2]
      cases passThroughPosition col slots 0 with
      | none => rfl
      | some j =>
        simp only
        cases own[j]? <;> rfl

/-! ### Aggregation and Projection: the claims -/

theorem Aggregation.buildSchemaByAggFuncs_Columns (AggFuncs : List AggregationFunction) :
    (Aggregation.buildSchemaByAggFuncs AggFuncs).Columns
      = (AggFuncs.map Aggregation.passThrough).map fun o => o.getD placeholderColumn := by
  simp [Aggregation.buildSchemaByAggFuncs, Aggregation.funcLoop_Columns, NewSchema]

theorem Aggregation.schemaByFuncs_Columns (AggFuncs : List AggregationFunction) :
    (Aggregation.schemaByFuncs AggFuncs).Columns
      = (Aggregation.buildSchemaByAggFuncs AggFuncs).Columns
        ++ (Aggregation.buildSchemaByAggFuncs AggFuncs).Columns := by
  rw [Aggregation.schemaByFuncs, Aggregation.funcLoop_Columns,
    Aggregation.buildSchemaByAggFuncs_Columns]

theorem Aggregation.schemaByFuncs_GetColumnIndex (AggFuncs : List AggregationFunction)
    (col : Column) :
    (Aggregation.schemaByFuncs AggFuncs).GetColumnIndex col
      = (Aggregation.buildSchemaByAggFuncs AggFuncs).GetColumnIndex col := by
  rw [Schema.GetColumnIndex, Schema.GetColumnIndex, Aggregation.schemaByFuncs_Columns,
    GetColumnIndexFrom_doubled]

theorem Aggregation.aggFuncKeys_eq (AggFuncs : List AggregationFunction) (schema child : Schema)
    (hlen : schema.Columns.length = AggFuncs.length)
    (hreal : ∀ key ∈ child.Keys, ∀ col ∈ key, isRealColumn col) :
    Aggregation.aggFuncKeys AggFuncs schema child
      = some (schema.Keys ++ child.Keys.filterMap
          (translateKey (AggFuncs.map Aggregation.passThrough) schema.Columns)) := by
  rw [Aggregation.aggFuncKeys,
    auxKeysLoop_congr _ _ (Aggregation.schemaByFuncs_GetColumnIndex AggFuncs)]
  exact auxKeysLoop_eq (AggFuncs.map Aggregation.passThrough) schema.Columns
    (by rw [hlen, List.length_map]) _ (Aggregation.buildSchemaByAggFuncs_Columns AggFuncs)
    child.Keys hreal schema.Keys

/-- C11: for an Aggregation with one output column per aggregate function, over a child
whose key groups consist of real columns, the aggFunc path of `buildKeyInfo` leaves the key
groups there were followed by the translation of every child key group all of whose columns
are passed through (`translateKey`), in child key order; the whole method then adds only
what the group-by path gives. A key group all of whose columns are the bare-column argument
of some first-row aggregate is translated, column by column, to the output column at the
first position whose aggregate passes that column through; a key group with a column that
no first-row aggregate passes through is not translated. -/
theorem Aggregation_aggFunc_path (AggFuncs : List AggregationFunction)
    (groupByCols : List Column) (schema child : Schema)
    (hlen : schema.Columns.length = AggFuncs.length)
    (hreal : ∀ key ∈ child.Keys, ∀ col ∈ key, isRealColumn col) :
    Aggregation.aggFuncKeys AggFuncs schema child
        = some (schema.Keys ++ child.Keys.filterMap
            (translateKey (AggFuncs.map Aggregation.passThrough) schema.Columns))
    ∧ Aggregation.buildKeyInfo AggFuncs groupByCols schema child
        = some { Columns := schema.Columns,
                 Keys := schema.Keys ++ child.Keys.filterMap
                    (translateKey (AggFuncs.map Aggregation.passThrough) schema.Columns)
                  ++ groupByKey groupByCols child.Keys }
    ∧ (∀ key, (∀ col ∈ key, ∃ f ∈ AggFuncs, ∃ c, Aggregation.passThrough f = some c
            ∧ c.FromID = col.FromID ∧ c.Position = col.Position) →
        ∃ newKey,
          translateKey (AggFuncs.map Aggregation.passThrough) schema.Columns key = some newKey
          ∧ List.Forall₂ (fun col out => ∃ j,
              passThroughPosition col (AggFuncs.map Aggregation.passThrough) 0 = some j
              ∧ schema.Columns[j]? = some out) key newKey)
    ∧ (∀ key, (∃ col ∈ key, ∀ f ∈ AggFuncs, ∀ c, Aggregation.passThrough f = some c →
            ¬ (c.FromID = col.FromID ∧ c.Position = col.Position)) →
        translateKey (AggFuncs.map Aggregation.passThrough) schema.Columns key = none) := by
  have h1 := Aggregation.aggFuncKeys_eq AggFuncs schema child hlen hreal
  refine ⟨h1, ?_, ?_, ?_⟩
  · simp only [Aggregation.buildKeyInfo, h1, Aggregation.groupbyLoop_eq]
  · intro key hall
    apply translateKey_of_all _ _ (by rw [hlen, List.length_map])
    intro col hcol
    obtain ⟨f, hf, c, hc, hid⟩ := hall col hcol
    exact ⟨c, List.mem_map.2 ⟨f, hf, hc⟩, hid⟩
  · intro key hmiss
    apply translateKey_of_missing
    obtain ⟨col, hcol, hno⟩ := hmiss
    refine ⟨col, hcol, fun c hc => ?_⟩
    obtain ⟨f, hf, hfc⟩ := List.mem_map.1 hc
    exact hno f hf c hfc

/-- C11 on the scenario of the spec: child key group `{t.id}`, `FIRST_ROW(t.id)` at output
0 and `SUM(t.amt)` at output 1, no group-by column: the key group registered is
`{output column 0}`. -/
theorem Aggregation_aggFunc_path_witness :
    aggSchemaT.Columns.length = aggFuncsT.length
    ∧ (∀ key ∈ childT.Keys, ∀ col ∈ key, isRealColumn col)
    ∧ Aggregation.buildKeyInfo aggFuncsT [] aggSchemaT childT
        = some { Columns := aggSchemaT.Columns, Keys := [[mkCol "agg" 0 "id"]] } := by
  have hreal : ∀ key ∈ childT.Keys, ∀ col ∈ key, isRealColumn col := by
    intro key hkey col hcol
    simp only [childT, List.mem_singleton] at hkey
    subst hkey
    simp only [List.mem_singleton] at hcol
    subst hcol
    simp [isRealColumn, mkCol]
  refine ⟨rfl, hreal, ?_⟩
  rw [(Aggregation_aggFunc_path aggFuncsT [] aggSchemaT childT rfl hreal).2.1]
  decide

/-- C13: for a Projection with one output column per expression, over a child whose key
groups consist of real columns, `Projection.buildKeyInfo` returns the schema with the key
groups there were followed by the translation of every child key group all of whose columns
are bare-column expressions (`translateKey`), in child key order. Such a key group is
translated, column by column, to the output column at the position of the first expression
that is that column; a key group with a column that is no bare-column expression of the
projection is not translated. -/
theorem Projection_rule (Exprs : List Expression) (schema child : Schema)
    (hlen : schema.Columns.length = Exprs.length)
    (hreal : ∀ key ∈ child.Keys, ∀ col ∈ key, isRealColumn col) :
    Projection.buildKeyInfo Exprs schema child
        = some { Columns := schema.Columns,
                 Keys := schema.Keys ++ child.Keys.filterMap
                    (translateKey (Exprs.map Projection.passThrough) schema.Columns) }
    ∧ (∀ key, (∀ col ∈ key, ∃ c, Expression.Column c ∈ Exprs
            ∧ c.FromID = col.FromID ∧ c.Position = col.Position) →
        ∃ newKey,
          translateKey (Exprs.map Projection.passThrough) schema.Columns key = some newKey
          ∧ List.Forall₂ (fun col out => ∃ j,
              passThroughPosition col (Exprs.map Projection.passThrough) 0 = some j
              ∧ schema.Columns[j]? = some out) key newKey)
    ∧ (∀ key, (∃ col ∈ key, ∀ c, Expression.Column c ∈ Exprs →
            ¬ (c.FromID = col.FromID ∧ c.Position = col.Position)) →
        translateKey (Exprs.map Projection.passThrough) schema.Columns key = none) := by
  have hcols : (Projection.buildSchemaByExprs Exprs).Columns
      = (Exprs.map Projection.passThrough).map fun o => o.getD placeholderColumn := by
    simp [Projection.buildSchemaByExprs, Projection.exprLoop_Columns, NewSchema]
  have hmem : ∀ c, some c ∈ Exprs.map Projection.passThrough ↔ Expression.Column c ∈ Exprs := by
    intro c
    rw [List.mem_map]
    constructor
    · rintro ⟨e, he, hp⟩
      cases e with
      | Column c2 =>
        simp only [Projection.passThrough, Option.some.injEq] at hp
        rw [← hp]
        exact he
      | NotColumn t => simp [Projection.passThrough] at hp
    · intro h
      exact ⟨_, h, rfl⟩
  refine ⟨?_, ?_, ?_⟩
  · simp only [Projection.buildKeyInfo]
    rw [auxKeysLoop_eq (Exprs.map Projection.passThrough) schema.Columns
      (by rw [hlen, List.length_map]) _ hcols child.Keys hreal schema.Keys]
  · intro key hall
    apply translateKey_of_all _ _ (by rw [hlen, List.length_map])
    intro col hcol
    obtain ⟨c, hc, hid⟩ := hall col hcol
    exact ⟨c, (hmem c).2 hc, hid⟩
  · intro key hmiss
    apply translateKey_of_missing
    obtain ⟨col, hcol, hno⟩ := hmiss
    exact ⟨col, hcol, fun c hc => hno c ((hmem c).1 hc)⟩

/-- C13 on the projection `t.amt + 1, t.id` over `t(id, amt)` with key group `{t.id}`: the
key group registered is `{output column 1}`. -/
theorem Projection_rule_witness :
    projSchemaT.Columns.length = projExprsT.length
    ∧ (∀ key ∈ childT.Keys, ∀ col ∈ key, isRealColumn col)
    ∧ Projection.buildKeyInfo projExprsT projSchemaT childT
        = some { Columns := projSchemaT.Columns, Keys := [[mkCol "proj" 1 "id"]] } := by
  have hreal : ∀ key ∈ childT.Keys, ∀ col ∈ key, isRealColumn col := by
    intro key hkey col hcol
    simp only [childT, List.mem_singleton] at hkey
    subst hkey
    simp only [List.mem_singleton] at hcol
    subst hcol
    simp [isRealColumn, mkCol]
  refine ⟨rfl, hreal, ?_⟩
  rw [(Projection_rule projExprsT projSchemaT childT rfl hreal).1]
  decide

theorem GetColumnIndexFrom_eq_neg_one (col : Column) (cs : List Column) (i : Nat) :
    GetColumnIndexFrom col cs i = -1 ↔
      ∀ c ∈ cs, ¬ (c.FromID = col.FromID ∧ c.Position = col.Position) := by
  induction cs generalizing i with
  | nil => simp [GetColumnIndexFrom]
  | cons c cs ih =>
    simp only [GetColumnIndexFrom]
    by_cases hc : c.FromID = col.FromID ∧ c.Position = col.Position
    · rw [if_pos hc]
      constructor
      · intro h
        omega
      · intro h
        exact absurd hc (h c (by simp))
    · rw [if_neg hc, ih]
      constructor
      · intro h c2 hc2
        rcases List.mem_cons.1 hc2 with h1 | h1
        · rw [h1]; exact hc
        · exact h c2 h1
      · intro h c2 hc2
        exact h c2 (List.mem_cons_of_mem _ hc2)

theorem groupByCovered_iff (groupByCols : List Column) (key : KeyInfo) :
    (key.all fun col => decide ((NewSchema groupByCols).GetColumnIndex col ≠ -1)) = true ↔
      ∀ col ∈ key, ∃ g ∈ groupByCols, g.FromID = col.FromID ∧ g.Position = col.Position := by
  rw [List.all_eq_true]
  constructor
  · intro h col hcol
    have h1 : (NewSchema groupByCols).GetColumnIndex col ≠ -1 := of_decide_eq_true (h col hcol)
    by_contra hno
    apply h1
    rw [Schema.GetColumnIndex, GetColumnIndexFrom_eq_neg_one]
    intro g hg hid
    exact hno ⟨g, hg, hid⟩
  · intro h col hcol
    apply decide_eq_true
    obtain ⟨g, hg, hid⟩ := h col hcol
    intro hneg
    rw [Schema.GetColumnIndex, GetColumnIndexFrom_eq_neg_one] at hneg
    exact hneg g hg hid

theorem find?_first {α : Type} (p : α → Bool) (pre post : List α) (a : α)
    (hpre : ∀ x ∈ pre, p x = false) (ha : p a = true) :
    (pre ++ a :: post).find? p = some a := by
  induction pre with
  | nil => simp [List.find?_cons, ha]
  | cons x pre ih =>
    have hx : p x = false := hpre x (by simp)
    simp only [List.cons_append, List.find?_cons, hx]
    exact ih (fun y hy => hpre y (List.mem_cons_of_mem _ hy))

theorem groupBy_translation (groupByCols : List Column) (key : KeyInfo)
    (hcov : ∀ col ∈ key, ∃ g ∈ groupByCols, g.FromID = col.FromID ∧ g.Position = col.Position) :
    List.Forall₂
      (fun col g => g ∈ groupByCols ∧ g.FromID = col.FromID ∧ g.Position = col.Position
        ∧ groupByCols.find?
            (fun c => decide (c.FromID = col.FromID ∧ c.Position = col.Position)) = some g)
      key
      (key.filterMap fun col =>
        groupByCols.find? fun g => decide (g.FromID = col.FromID ∧ g.Position = col.Position)) := by
  induction key with
  | nil => exact List.Forall₂.nil
  | cons col rest ih =>
    obtain ⟨g, hg, hid⟩ := hcov col (by simp)
    cases hf : groupByCols.find?
        (fun c => decide (c.FromID = col.FromID ∧ c.Position = col.Position)) with
    | none =>
      rw [List.find?_eq_none] at hf
      exact absurd (decide_eq_true hid) (hf g hg)
    | some g2 =>
      have hmem : g2 ∈ groupByCols := List.mem_of_find?_eq_some hf
      have hp := List.find?_some hf
      have hid2 : g2.FromID = col.FromID ∧ g2.Position = col.Position :=
        of_decide_eq_true hp
      have hfm : List.filterMap (fun col => groupByCols.find? fun g =>
            decide (g.FromID = col.FromID ∧ g.Position = col.Position)) (col :: rest)
          = g2 :: List.filterMap (fun col => groupByCols.find? fun g =>
            decide (g.FromID = col.FromID ∧ g.Position = col.Position)) rest :=
        List.filterMap_cons_some hf
      rw [hfm]
      exact List.Forall₂.cons ⟨hmem, hid2.1, hid2.2, hf⟩
        (ih (fun c hc => hcov c (List.mem_cons_of_mem _ hc)))

/-- C12: the group-by step of `Aggregation.buildKeyInfo` leaves the key groups there were
followed by `groupByKey`, which holds at most one key group. It holds one exactly when some
child key group has all its columns in the group-by column list; and when `key` is the
first child key group with all its columns in the group-by list, the one group registered
is `key` translated column by column to the first group-by column of the same identity,
whatever key groups come after `key`. -/
theorem Aggregation_groupby_path (AggFuncs : List AggregationFunction)
    (groupByCols : List Column) (schema child : Schema) (keys1 : List KeyInfo) :
    Aggregation.groupbyLoop (NewSchema groupByCols) child.Keys keys1
        = some (keys1 ++ groupByKey groupByCols child.Keys)
    ∧ (Aggregation.aggFuncKeys AggFuncs schema child = some keys1 →
        Aggregation.buildKeyInfo AggFuncs groupByCols schema child
          = some { Columns := schema.Columns,
                   Keys := keys1 ++ groupByKey groupByCols child.Keys })
    ∧ (groupByKey groupByCols child.Keys).length ≤ 1
    ∧ ((groupByKey groupByCols child.Keys).length = 1 ↔
        ∃ key ∈ child.Keys, ∀ col ∈ key,
          ∃ g ∈ groupByCols, g.FromID = col.FromID ∧ g.Position = col.Position)
    ∧ (∀ pre key post, child.Keys = pre ++ key :: post →
        (∀ k ∈ pre, ¬ ∀ col ∈ k,
          ∃ g ∈ groupByCols, g.FromID = col.FromID ∧ g.Position = col.Position) →
        (∀ col ∈ key, ∃ g ∈ groupByCols, g.FromID = col.FromID ∧ g.Position = col.Position) →
        ∃ newKey, groupByKey groupByCols child.Keys = [newKey] ∧
          List.Forall₂
            (fun col g => g ∈ groupByCols ∧ g.FromID = col.FromID ∧ g.Position = col.Position
              ∧ groupByCols.find?
                  (fun c => decide (c.FromID = col.FromID ∧ c.Position = col.Position)) = some g)
            key newKey) := by
  refine ⟨Aggregation.groupbyLoop_eq _ _ _, ?_, ?_, ?_, ?_⟩
  · intro h
    simp only [Aggregation.buildKeyInfo, h, Aggregation.groupbyLoop_eq]
  · unfold groupByKey
    split <;> simp
  · unfold groupByKey
    split
    · next hnone =>
      rw [List.find?_eq_none] at hnone
      simp only [List.length_nil]
      constructor
      · intro h
        omega
      · rintro ⟨key, hkey, hcov⟩
        exact absurd ((groupByCovered_iff groupByCols key).2 hcov) (hnone key hkey)
    · next key hsome =>
      simp only [List.length_singleton, true_iff]
      have hp := List.find?_some hsome
      exact ⟨key, List.mem_of_find?_eq_some hsome,
        (groupByCovered_iff groupByCols key).1 hp⟩
  · intro pre key post hkeys hpre hcov
    have hfind : child.Keys.find? (fun key =>
        key.all fun col => decide ((NewSchema groupByCols).GetColumnIndex col ≠ -1))
          = some key := by
      rw [hkeys]
      apply find?_first
      · intro k hk
        rw [Bool.eq_false_iff]
        intro ht
        exact hpre k hk ((groupByCovered_iff groupByCols k).1 ht)
      · exact (groupByCovered_iff groupByCols key).2 hcov
    refine ⟨_, ?_, groupBy_translation groupByCols key hcov⟩
    simp only [groupByKey, hfind]

/-- C12 on `t(id, amt)` with the child key groups `{t.amt, t.id}`, `{t.id}`, `{t.id}` and
group-by column `t.id`: the first group is not covered, the second is registered, the third
is not. -/
theorem Aggregation_groupby_path_witness :
    Aggregation.groupbyLoop (NewSchema [mkCol "t" 0 "id"])
        [[mkCol "t" 1 "amt", mkCol "t" 0 "id"], [mkCol "t" 0 "id"], [mkCol "t" 0 "id"]] []
      = some [[mkCol "t" 0 "id"]] := by
  rw [(Aggregation_groupby_path [] [mkCol "t" 0 "id"] aggSchemaT
    ⟨childT.Columns,
      [[mkCol "t" 1 "amt", mkCol "t" 0 "id"], [mkCol "t" 0 "id"], [mkCol "t" 0 "id"]]⟩ []).1]
  decide

/-- C19: the auxiliary schema that `Aggregation.buildKeyInfo` uses is the schema returned by
`buildSchemaByAggFuncs` followed by the same columns once more, 2n columns for n aggregate
functions. Every index that `GetColumnsIndices` returns from it is at least 0 and less than
n, so with n output columns the loop that selects the output columns does not fault; and
the aggFunc path computes the same key groups as it would from the n-column schema. -/
theorem Aggregation_doubled_schema (AggFuncs : List AggregationFunction)
    (schema child : Schema) :
    (Aggregation.schemaByFuncs AggFuncs).Columns
        = (Aggregation.buildSchemaByAggFuncs AggFuncs).Columns
          ++ (Aggregation.buildSchemaByAggFuncs AggFuncs).Columns
    ∧ (Aggregation.buildSchemaByAggFuncs AggFuncs).Columns.length = AggFuncs.length
    ∧ (Aggregation.schemaByFuncs AggFuncs).Columns.length = 2 * AggFuncs.length
    ∧ (∀ key indices, (Aggregation.schemaByFuncs AggFuncs).GetColumnsIndices key = some indices →
        ∀ i ∈ indices, 0 ≤ i ∧ i < AggFuncs.length)
    ∧ (schema.Columns.length = AggFuncs.length →
        ∀ key indices, (Aggregation.schemaByFuncs AggFuncs).GetColumnsIndices key = some indices →
          ∃ newKey, newKeyLoop schema.Columns indices [] = some newKey)
    ∧ Aggregation.aggFuncKeys AggFuncs schema child
        = auxKeysLoop (Aggregation.buildSchemaByAggFuncs AggFuncs) schema.Columns child.Keys
            schema.Keys := by
  have hn : (Aggregation.buildSchemaByAggFuncs AggFuncs).Columns.length = AggFuncs.length := by
    rw [Aggregation.buildSchemaByAggFuncs_Columns, List.length_map, List.length_map]
  have hidx : ∀ key indices,
      (Aggregation.schemaByFuncs AggFuncs).GetColumnsIndices key = some indices →
        ∀ i ∈ indices, 0 ≤ i ∧ i.toNat < AggFuncs.length := by
    intro key indices hsome i hi
    rw [GetColumnsIndices_congr _ _ (Aggregation.schemaByFuncs_GetColumnIndex AggFuncs),
      Schema.GetColumnsIndices, GetColumnsIndicesLoop_eq] at hsome
    split at hsome
    · next hall =>
      simp only [List.nil_append, Option.some.injEq] at hsome
      rw [← hsome, List.mem_map] at hi
      obtain ⟨c, hc, rfl⟩ := hi
      have h1 := GetColumnIndexFrom_nonneg c (Aggregation.buildSchemaByAggFuncs AggFuncs).Columns
        0 (hall c hc)
      rw [hn] at h1
      rw [Schema.GetColumnIndex]
      omega
    · exact absurd hsome (by simp)
  refine ⟨Aggregation.schemaByFuncs_Columns AggFuncs, hn, ?_, ?_, ?_, ?_⟩
  · rw [Aggregation.schemaByFuncs_Columns, List.length_append, hn]
    omega
  · intro key indices hsome i hi
    have h1 := hidx key indices hsome i hi
    omega
  · intro hlen key indices hsome
    exact ⟨_, newKeyLoop_eq schema.Columns indices [] (fun i hi => by
      have h1 := hidx key indices hsome i hi
      omega)⟩
  · rw [Aggregation.aggFuncKeys,
      auxKeysLoop_congr _ _ (Aggregation.schemaByFuncs_GetColumnIndex AggFuncs)]

/-- C19 on `FIRST_ROW(t.id)`, `SUM(t.amt)`: the doubled schema has four columns, the index
found for `t.id` is 0, and the key group registered is `{output column 0}`. -/
theorem Aggregation_doubled_schema_witness :
    (Aggregation.schemaByFuncs aggFuncsT).Columns.length = 4
    ∧ (Aggregation.schemaByFuncs aggFuncsT).GetColumnsIndices [mkCol "t" 0 "id"] = some [0]
    ∧ Aggregation.aggFuncKeys aggFuncsT aggSchemaT childT = some [[mkCol "agg" 0 "id"]] := by
  refine ⟨?_, by decide, ?_⟩
  · rw [(Aggregation_doubled_schema aggFuncsT aggSchemaT childT).2.2.1]
    rfl
  · decide

/-! ### What each operator adds to the key groups -/

theorem newKeyLoop_adds (own : List Column) (indices : List Int) (newKey newKey2 : KeyInfo)
    (h : newKeyLoop own indices newKey = some newKey2) :
    ∃ added, newKey2 = newKey ++ added ∧ ∀ c ∈ added, c ∈ own := by
  induction indices generalizing newKey with
  | nil =>
    simp only [newKeyLoop, Option.some.injEq] at h
    exact ⟨[], by simp [h], by simp⟩
  | cons i rest ih =>
    simp only [newKeyLoop] at h
    split at h
    · exact absurd h (by simp)
    · cases hget : own[i.toNat]? with
      | none => simp [hget] at h
      | some c =>
        simp only [hget] at h
        obtain ⟨added, hadd, hmem⟩ := ih _ h
        refine ⟨c :: added, by simp [hadd], ?_⟩
        intro c2 hc2
        rcases List.mem_cons.1 hc2 with h1 | h1
        · rw [h1]
          exact List.getElem?_mem hget
        · exact hmem c2 h1

theorem auxKeysLoop_adds (aux : Schema) (own : List Column) (childKeys keys keys2 : List KeyInfo)
    (h : auxKeysLoop aux own childKeys keys = some keys2) :
    ∃ added, keys2 = keys ++ added ∧ ∀ key ∈ added, ∀ col ∈ key, col ∈ own := by
  induction childKeys generalizing keys with
  | nil =>
    simp only [auxKeysLoop, Option.some.injEq] at h
    exact ⟨[], by simp [h], by simp⟩
  | cons key rest ih =>
    simp only [auxKeysLoop] at h
    cases hidx : aux.GetColumnsIndices key with
    | none =>
      simp only [hidx] at h
      exact ih keys h
    | some indices =>
      simp only [hidx] at h
      cases hnk : newKeyLoop own indices [] with
      | none => simp [hnk] at h
      | some newKey =>
        simp only [hnk] at h
        obtain ⟨added, hadd, hmem⟩ := ih _ h
        obtain ⟨cols, hcols, hcmem⟩ := newKeyLoop_adds own indices [] newKey hnk
        refine ⟨newKey :: added, by simp [hadd], ?_⟩
        intro k hk
        rcases List.mem_cons.1 hk with h1 | h1
        · rw [h1, hcols]
          simpa using hcmem
        · exact hmem k h1

theorem groupByKey_within (groupByCols : List Column) (childKeys : List KeyInfo) :
    ∀ key ∈ groupByKey groupByCols childKeys, ∀ col ∈ key, col ∈ groupByCols := by
  intro key hkey col hcol
  unfold groupByKey at hkey
  split at hkey
  · simp at hkey
  · simp only [List.mem_singleton] at hkey
    rw [hkey, List.mem_filterMap] at hcol
    obtain ⟨c, _, hfind⟩ := hcol
    exact List.mem_of_find?_eq_some hfind

theorem uniqueIndexKey_within (cols : List Column) (idx : IndexInfo) (key : KeyInfo)
    (h : uniqueIndexKey cols idx = some key) : ∀ col ∈ key, col ∈ cols := by
  intro col hcol
  unfold uniqueIndexKey at h
  split at h
  · simp only [Option.some.injEq] at h
    rw [← h, List.mem_filterMap] at hcol
    obtain ⟨ic, _, hfm⟩ := hcol
    exact (firstMatch_eq_some cols ic col hfm).1
  · exact absurd h (by simp)

theorem DataSource.dataSource_adds (HasPriKeyFlag : Nat → Bool) (indices : List IndexInfo)
    (PKIsHandle : Bool) (Columns : List ColumnInfo) (schema s : Schema)
    (h : DataSource.buildKeyInfo HasPriKeyFlag indices PKIsHandle Columns schema = some s) :
    s.Columns = schema.Columns ∧
      ∃ added, s.Keys = schema.Keys ++ added ∧ ∀ key ∈ added, ∀ col ∈ key, col ∈ schema.Columns := by
  have hidx : ∀ key ∈ indices.filterMap (uniqueIndexKey schema.Columns),
      ∀ col ∈ key, col ∈ schema.Columns := by
    intro key hkey
    rw [List.mem_filterMap] at hkey
    obtain ⟨idx, _, hk⟩ := hkey
    exact uniqueIndexKey_within schema.Columns idx key hk
  cases PKIsHandle with
  | false =>
    simp only [DataSource.buildKeyInfo, DataSource.indexLoop_eq] at h
    rw [if_neg (by decide)] at h
    simp only [Option.some.injEq] at h
    rw [← h]
    exact ⟨rfl, _, rfl, hidx⟩
  | true =>
    simp only [DataSource.buildKeyInfo, DataSource.indexLoop_eq, if_true] at h
    cases hpk : DataSource.pkLoop HasPriKeyFlag schema.Columns Columns 0
        (schema.Keys ++ indices.filterMap (uniqueIndexKey schema.Columns)) with
    | none => simp [hpk] at h
    | some keys2 =>
      simp only [hpk, Option.some.injEq] at h
      rw [← h]
      refine ⟨rfl, ?_⟩
      rcases DataSource.pkLoop_adds_at_most_one _ _ _ _ _ _ hpk with h1 | ⟨c, hc, h1⟩
      · exact ⟨_, h1, hidx⟩
      · refine ⟨indices.filterMap (uniqueIndexKey schema.Columns) ++ [[c]], by simp [h1], ?_⟩
        intro key hkey
        rcases List.mem_append.1 hkey with h2 | h2
        · exact hidx key h2
        · simp only [List.mem_singleton] at h2
          rw [h2]
          intro col hcol
          simp only [List.mem_singleton] at hcol
          rw [hcol]
          exact hc

theorem Join.join_adds (Equal : Column → Column → Bool) (jt : JoinType)
    (conds : List EqualCondition) (schema child0 child1 : Schema)
    (hjt : jt = .InnerJoin ∨ jt = .LeftOuterJoin ∨ jt = .RightOuterJoin) :
    (Join.buildKeyInfo Equal jt conds schema child0 child1).Columns = schema.Columns ∧
      ∃ added, (Join.buildKeyInfo Equal jt conds schema child0 child1).Keys
          = schema.Keys ++ added
        ∧ ∀ key ∈ added, key ∈ child0.Keys ∨ key ∈ child1.Keys := by
  cases conds with
  | nil =>
    rcases hjt with h | h | h <;> subst h <;>
      exact ⟨rfl, [], by simp [Join.buildKeyInfo], by simp⟩
  | cons c cs =>
    have hk := Join.buildKeyInfo_keys Equal jt (c :: cs) schema child0 child1 hjt (by simp)
    refine ⟨?_, _, by rw [hk, List.append_assoc], ?_⟩
    · rcases hjt with h | h | h <;> subst h <;> simp [Join.buildKeyInfo]
    · intro key hkey
      rcases List.mem_append.1 hkey with h1 | h1
      · split at h1
        · exact Or.inr h1
        · simp at h1
      · split at h1
        · exact Or.inl h1
        · simp at h1

theorem Trim.buildKeyInfo_eq (schema child : Schema) :
    Trim.buildKeyInfo schema child = some schema := by
  simp only [Trim.buildKeyInfo, Trim.keysLoop_eq]

theorem Aggregation.aggregation_adds (AggFuncs : List AggregationFunction)
    (groupByCols : List Column) (schema child s : Schema)
    (h : Aggregation.buildKeyInfo AggFuncs groupByCols schema child = some s) :
    s.Columns = schema.Columns ∧
      ∃ added, s.Keys = schema.Keys ++ added ++ groupByKey groupByCols child.Keys
        ∧ ∀ key ∈ added, ∀ col ∈ key, col ∈ schema.Columns := by
  simp only [Aggregation.buildKeyInfo] at h
  cases h1 : Aggregation.aggFuncKeys AggFuncs schema child with
  | none => simp [h1] at h
  | some keys1 =>
    simp only [h1, Aggregation.groupbyLoop_eq, Option.some.injEq] at h
    obtain ⟨added, hadd, hmem⟩ := auxKeysLoop_adds _ _ _ _ _ h1
    rw [← h]
    exact ⟨rfl, added, by simp [hadd], hmem⟩

theorem Projection.projection_adds (Exprs : List Expression) (schema child s : Schema)
    (h : Projection.buildKeyInfo Exprs schema child = some s) :
    s.Columns = schema.Columns ∧
      ∃ added, s.Keys = schema.Keys ++ added ∧ ∀ key ∈ added, ∀ col ∈ key, col ∈ schema.Columns := by
  simp only [Projection.buildKeyInfo] at h
  cases h1 : auxKeysLoop (Projection.buildSchemaByExprs Exprs) schema.Columns child.Keys
      schema.Keys with
  | none => simp [h1] at h
  | some keys1 =>
    simp only [h1, Option.some.injEq] at h
    obtain ⟨added, hadd, hmem⟩ := auxKeysLoop_adds _ _ _ _ _ h1
    rw [← h]
    exact ⟨rfl, added, hadd, hmem⟩

theorem keysWithinColumns_of_adds (schema s : Schema) (added : List KeyInfo)
    (hinv : schema.keysWithinColumns) (hcols : s.Columns = schema.Columns)
    (hkeys : s.Keys = schema.Keys ++ added)
    (hadd : ∀ key ∈ added, ∀ col ∈ key, col ∈ schema.Columns) : s.keysWithinColumns := by
  intro key hkey col hcol
  rw [hcols]
  rw [hkeys] at hkey
  rcases List.mem_append.1 hkey with h | h
  · exact hinv key h col hcol
  · exact hadd key h col hcol

/-- C14 (counterexample): the aggregation `FIRST_ROW(t.id)`, `SUM(t.amt)` grouped by `t.id`
over `t(id, amt)` with key group `{t.id}`. The invariant holds for the child and for the
aggregation's schema before the call; after `buildKeyInfo` the schema has the key group
`{t.id}`, registered by the group-by path, and `t.id` is not a column of the aggregation's
schema `[agg.id, agg.total]` (nor is it found there by `GetColumnIndex`). -/
theorem Aggregation_groupby_key_outside_schema :
    childT.keysWithinColumns ∧ aggSchemaT.keysWithinColumns
    ∧ Aggregation.buildKeyInfo aggFuncsT [mkCol "t" 0 "id"] aggSchemaT childT
        = some { Columns := [mkCol "agg" 0 "id", mkCol "agg" 1 "total"],
                 Keys := [[mkCol "agg" 0 "id"], [mkCol "t" 0 "id"]] }
    ∧ Schema.GetColumnIndex aggSchemaT (mkCol "t" 0 "id") = -1
    ∧ ¬ Schema.keysWithinColumns
        { Columns := [mkCol "agg" 0 "id", mkCol "agg" 1 "total"],
          Keys := [[mkCol "agg" 0 "id"], [mkCol "t" 0 "id"]] } := by
  refine ⟨?_, ?_, by decide, by decide, ?_⟩
  · simp [Schema.keysWithinColumns, childT]
  · simp [Schema.keysWithinColumns, aggSchemaT]
  · intro h
    have h1 := h [mkCol "t" 0 "id"] (by simp) (mkCol "t" 0 "id") (by simp)
    revert h1
    decide

/-- C14 (amended): if the key groups left by the base step are within the node's columns
(and, for Join and Apply, the children's key groups are within the children's columns and
the node's columns contain the children's columns), then after `buildKeyInfo` every key
group of a Projection, Trim, Join, DataSource or Apply is within the node's columns; for an
Aggregation the key groups are those within the node's columns followed by what the
group-by path registered (`groupByKey`, at most one group), whose columns are columns of
the group-by list. -/
theorem keysWithinColumns_except_groupby :
    (∀ (AggFuncs : List AggregationFunction) (groupByCols : List Column) (schema child s : Schema),
        schema.keysWithinColumns →
        Aggregation.buildKeyInfo AggFuncs groupByCols schema child = some s →
        ∃ ks, s.Keys = ks ++ groupByKey groupByCols child.Keys
          ∧ (∀ key ∈ ks, ∀ col ∈ key, col ∈ s.Columns)
          ∧ (∀ key ∈ groupByKey groupByCols child.Keys, ∀ col ∈ key, col ∈ groupByCols))
    ∧ (∀ (Exprs : List Expression) (schema child s : Schema), schema.keysWithinColumns →
        Projection.buildKeyInfo Exprs schema child = some s → s.keysWithinColumns)
    ∧ (∀ (schema child s : Schema), schema.keysWithinColumns →
        Trim.buildKeyInfo schema child = some s → s.keysWithinColumns)
    ∧ (∀ (Equal : Column → Column → Bool) (jt : JoinType) (conds : List EqualCondition)
        (schema child0 child1 : Schema), schema.keysWithinColumns →
        child0.keysWithinColumns → child1.keysWithinColumns →
        (∀ c ∈ child0.Columns, c ∈ schema.Columns) → (∀ c ∈ child1.Columns, c ∈ schema.Columns) →
        (Join.buildKeyInfo Equal jt conds schema child0 child1).keysWithinColumns)
    ∧ (∀ (HasPriKeyFlag : Nat → Bool) (indices : List IndexInfo) (PKIsHandle : Bool)
        (Columns : List ColumnInfo) (schema s : Schema), schema.keysWithinColumns →
        DataSource.buildKeyInfo HasPriKeyFlag indices PKIsHandle Columns schema = some s →
        s.keysWithinColumns)
    ∧ (∀ (schema child0 child1 : Schema),
        child0.keysWithinColumns → child1.keysWithinColumns →
        (∀ c ∈ child0.Columns, c ∈ schema.Columns) → (∀ c ∈ child1.Columns, c ∈ schema.Columns) →
        (Apply.buildKeyInfo schema child0 child1).keysWithinColumns) := by
  refine ⟨?_, ?_, ?_, ?_, ?_, ?_⟩
  · intro AggFuncs groupByCols schema child s hinv h
    obtain ⟨hcols, added, hkeys, hadd⟩ :=
      Aggregation.aggregation_adds AggFuncs groupByCols schema child s h
    refine ⟨schema.Keys ++ added, hkeys, ?_, groupByKey_within groupByCols child.Keys⟩
    intro key hkey col hcol
    rw [hcols]
    rcases List.mem_append.1 hkey with h1 | h1
    · exact hinv key h1 col hcol
    · exact hadd key h1 col hcol
  · intro Exprs schema child s hinv h
    obtain ⟨hcols, added, hkeys, hadd⟩ := Projection.projection_adds Exprs schema child s h
    exact keysWithinColumns_of_adds schema s added hinv hcols hkeys hadd
  · intro schema child s hinv h
    rw [Trim.buildKeyInfo_eq, Option.some.injEq] at h
    rw [← h]
    exact hinv
  · intro Equal jt conds schema child0 child1 hinv h0 h1 hs0 hs1
    have hsemi : Schema.keysWithinColumns
        { Columns := schema.Columns, Keys := child0.Keys } := by
      intro key hkey col hcol
      exact hs0 col (h0 key hkey col hcol)
    cases jt with
    | SemiJoin => exact hsemi
    | SemiJoinWithAux => exact hsemi
    | InnerJoin =>
      obtain ⟨hcols, added, hkeys, hadd⟩ :=
        Join.join_adds Equal .InnerJoin conds schema child0 child1 (Or.inl rfl)
      exact keysWithinColumns_of_adds schema _ added hinv hcols hkeys (fun key hkey col hcol => by
        rcases hadd key hkey with h2 | h2
        · exact hs0 col (h0 key h2 col hcol)
        · exact hs1 col (h1 key h2 col hcol))
    | LeftOuterJoin =>
      obtain ⟨hcols, added, hkeys, hadd⟩ :=
        Join.join_adds Equal .LeftOuterJoin conds schema child0 child1
          (Or.inr (Or.inl rfl))
      exact keysWithinColumns_of_adds schema _ added hinv hcols hkeys (fun key hkey col hcol => by
        rcases hadd key hkey with h2 | h2
        · exact hs0 col (h0 key h2 col hcol)
        · exact hs1 col (h1 key h2 col hcol))
    | RightOuterJoin =>
      obtain ⟨hcols, added, hkeys, hadd⟩ :=
        Join.join_adds Equal .RightOuterJoin conds schema child0 child1
          (Or.inr (Or.inr rfl))
      exact keysWithinColumns_of_adds schema _ added hinv hcols hkeys (fun key hkey col hcol => by
        rcases hadd key hkey with h2 | h2
        · exact hs0 col (h0 key h2 col hcol)
        · exact hs1 col (h1 key h2 col hcol))
  · intro HasPriKeyFlag indices PKIsHandle Columns schema s hinv h
    obtain ⟨hcols, added, hkeys, hadd⟩ :=
      DataSource.dataSource_adds HasPriKeyFlag indices PKIsHandle Columns schema s h
    exact keysWithinColumns_of_adds schema s added hinv hcols hkeys hadd
  · intro schema child0 child1 h0 h1 hs0 hs1 key hkey col hcol
    simp only [Apply.buildKeyInfo, Schema.Clone, List.mem_append] at hkey
    rcases hkey with h2 | h2
    · exact hs0 col (h0 key h2 col hcol)
    · exact hs1 col (h1 key h2 col hcol)

/-- C14 (amended) on the aggregation of the counterexample: the key groups after
`buildKeyInfo` are `{agg.id}`, within the aggregation's columns, followed by the group-by
key group `{t.id}`, whose column is in the group-by list. -/
theorem keysWithinColumns_except_groupby_witness :
    aggSchemaT.keysWithinColumns
    ∧ ∃ ks, [[mkCol "agg" 0 "id"], [mkCol "t" 0 "id"]]
        = ks ++ groupByKey [mkCol "t" 0 "id"] childT.Keys
      ∧ (∀ key ∈ ks, ∀ col ∈ key, col ∈ [mkCol "agg" 0 "id", mkCol "agg" 1 "total"])
      ∧ (∀ key ∈ groupByKey [mkCol "t" 0 "id"] childT.Keys,
          ∀ col ∈ key, col ∈ [mkCol "t" 0 "id"]) :=
  ⟨by simp [Schema.keysWithinColumns, aggSchemaT],
   keysWithinColumns_except_groupby.1 aggFuncsT [mkCol "t" 0 "id"] aggSchemaT childT
     { Columns := [mkCol "agg" 0 "id", mkCol "agg" 1 "total"],
       Keys := [[mkCol "agg" 0 "id"], [mkCol "t" 0 "id"]] }
     (by simp [Schema.keysWithinColumns, aggSchemaT]) (by decide)⟩

/-- C15 (counterexample): a semi-join, and an Apply, of `L` and `R` on whose schema the key
group `{L.a}` is present before the operator-specific part runs: afterwards `{L.a}` is not
among the key groups, which are `{L.id}` for the semi-join and `{L.id}`, `{R.id}` for the
Apply. -/
theorem semi_join_and_apply_drop_prior_key :
    [mkCol "L" 1 "a"] ∈ joinLRWithKey.Keys
    ∧ (Join.buildKeyInfo sameColumn .SemiJoin [condIdFk] joinLRWithKey leftL rightR).Keys
        = [[mkCol "L" 0 "id"]]
    ∧ [mkCol "L" 1 "a"] ∉
        (Join.buildKeyInfo sameColumn .SemiJoin [condIdFk] joinLRWithKey leftL rightR).Keys
    ∧ (Apply.buildKeyInfo joinLRWithKey leftL rightR).Keys
        = [[mkCol "L" 0 "id"], [mkCol "R" 0 "id"]]
    ∧ [mkCol "L" 1 "a"] ∉ (Apply.buildKeyInfo joinLRWithKey leftL rightR).Keys := by
  refine ⟨by decide, by decide, by decide, by decide, by decide⟩

/-- C15 (amended): for Aggregation, Projection, Trim, DataSource and Join of kind inner,
left-outer or right-outer, the key-group list that was on the node's schema is a prefix of
the list on the schema that `buildKeyInfo` returns (and Trim always returns one). For a
Join of kind SemiJoin or SemiJoinWithAux and for an Apply the list is assigned: afterwards
it is the outer child's list, respectively the outer child's list followed by the inner
child's list, whatever was there before; so what was there before is kept when it was
empty. -/
theorem buildKeyInfo_appends_or_assigns :
    (∀ (AggFuncs : List AggregationFunction) (groupByCols : List Column) (schema child s : Schema),
        Aggregation.buildKeyInfo AggFuncs groupByCols schema child = some s →
        schema.Keys <+: s.Keys)
    ∧ (∀ (Exprs : List Expression) (schema child s : Schema),
        Projection.buildKeyInfo Exprs schema child = some s → schema.Keys <+: s.Keys)
    ∧ (∀ (schema child : Schema),
        ∃ s, Trim.buildKeyInfo schema child = some s ∧ schema.Keys <+: s.Keys)
    ∧ (∀ (HasPriKeyFlag : Nat → Bool) (indices : List IndexInfo) (PKIsHandle : Bool)
        (Columns : List ColumnInfo) (schema s : Schema),
        DataSource.buildKeyInfo HasPriKeyFlag indices PKIsHandle Columns schema = some s →
        schema.Keys <+: s.Keys)
    ∧ (∀ (Equal : Column → Column → Bool) (jt : JoinType) (conds : List EqualCondition)
        (schema child0 child1 : Schema),
        jt = .InnerJoin ∨ jt = .LeftOuterJoin ∨ jt = .RightOuterJoin →
        schema.Keys <+: (Join.buildKeyInfo Equal jt conds schema child0 child1).Keys)
    ∧ (∀ (Equal : Column → Column → Bool) (jt : JoinType) (conds : List EqualCondition)
        (schema child0 child1 : Schema), jt = .SemiJoin ∨ jt = .SemiJoinWithAux →
        (Join.buildKeyInfo Equal jt conds schema child0 child1).Keys = child0.Keys
        ∧ (schema.Keys = [] →
            schema.Keys <+: (Join.buildKeyInfo Equal jt conds schema child0 child1).Keys))
    ∧ (∀ (schema child0 child1 : Schema),
        (Apply.buildKeyInfo schema child0 child1).Keys = child0.Keys ++ child1.Keys
        ∧ (schema.Keys = [] → schema.Keys <+: (Apply.buildKeyInfo schema child0 child1).Keys)) := by
  refine ⟨?_, ?_, ?_, ?_, ?_, ?_, ?_⟩
  · intro AggFuncs groupByCols schema child s h
    obtain ⟨_, added, hkeys, _⟩ :=
      Aggregation.aggregation_adds AggFuncs groupByCols schema child s h
    exact ⟨added ++ groupByKey groupByCols child.Keys, by rw [hkeys, List.append_assoc]⟩
  · intro Exprs schema child s h
    obtain ⟨_, added, hkeys, _⟩ := Projection.projection_adds Exprs schema child s h
    exact ⟨added, hkeys.symm⟩
  · intro schema child
    exact ⟨schema, Trim.buildKeyInfo_eq schema child, List.prefix_refl _⟩
  · intro HasPriKeyFlag indices PKIsHandle Columns schema s h
    obtain ⟨_, added, hkeys, _⟩ :=
      DataSource.dataSource_adds HasPriKeyFlag indices PKIsHandle Columns schema s h
    exact ⟨added, hkeys.symm⟩
  · intro Equal jt conds schema child0 child1 hjt
    obtain ⟨_, added, hkeys, _⟩ := Join.join_adds Equal jt conds schema child0 child1 hjt
    exact ⟨added, hkeys.symm⟩
  · intro Equal jt conds schema child0 child1 hjt
    have hk : (Join.buildKeyInfo Equal jt conds schema child0 child1).Keys = child0.Keys := by
      rcases hjt with h | h <;> subst h <;> rfl
    refine ⟨hk, fun hnil => ?_⟩
    rw [hnil]
    exact List.nil_prefix
  · intro schema child0 child1
    refine ⟨rfl, fun hnil => ?_⟩
    rw [hnil]
    exact List.nil_prefix

/-- C15 (amended) on the left-outer join of `L` and `R` on `L.id = R.fk` with the key group
`{L.a}` already present: it is still the first key group afterwards. -/
theorem buildKeyInfo_appends_or_assigns_witness :
    (JoinType.LeftOuterJoin = .InnerJoin ∨ JoinType.LeftOuterJoin = .LeftOuterJoin
        ∨ JoinType.LeftOuterJoin = .RightOuterJoin)
    ∧ joinLRWithKey.Keys <+:
        (Join.buildKeyInfo sameColumn .LeftOuterJoin [condIdFk] joinLRWithKey leftL rightR).Keys :=
  ⟨Or.inr (Or.inl rfl),
   buildKeyInfo_appends_or_assigns.2.2.2.2.1 sameColumn .LeftOuterJoin [condIdFk] joinLRWithKey
     leftL rightR (Or.inr (Or.inl rfl))⟩

/-! ### `extractCorColumnsBySchema` returns, with as many entries as the schema -/

theorem extractLoop_isSome (schema : List Column) (ps : List Nat)
    (res : List (Option CorrelatedColumn)) (h : Heap) (hlen : res.length = schema.length) :
    ∃ res2 h2, extractLoop schema ps res h = some (res2, h2) ∧ res2.length = schema.length := by
  induction ps generalizing res h with
  | nil => exact ⟨res, h, rfl, hlen⟩
  | cons p ps ih =>
    simp only [extractLoop]
    split
    · next hidx =>
      have hr := GetColumnIndexFrom_nonneg (h.cor p).Column schema 0 hidx
      rw [Nat.zero_add] at hr
      have hget : res[(GetColumnIndexFrom (h.cor p).Column schema 0).toNat]?
          = some res[(GetColumnIndexFrom (h.cor p).Column schema 0).toNat] :=
        List.getElem?_eq_getElem (by omega)
      have hget2 : schema[(GetColumnIndexFrom (h.cor p).Column schema 0).toNat]?
          = some schema[(GetColumnIndexFrom (h.cor p).Column schema 0).toNat] :=
        List.getElem?_eq_getElem hr.2
      rw [hget]
      cases res[(GetColumnIndexFrom (h.cor p).Column schema 0).toNat] with
      | none =>
        simp only [hget2]
        exact ih _ _ (by simp [hlen])
      | some b => exact ih _ _ hlen
    · exact ih _ _ hlen

theorem shrinkLoop_length (todo i length : Nat) (res : List (Option CorrelatedColumn)) :
    (shrinkLoop todo i length res).length = res.length := by
  induction todo generalizing i length res with
  | zero => rfl
  | succ n ih =>
    simp only [shrinkLoop]
    split
    · rw [ih]
      simp
    · exact ih _ _ _

theorem extractCorColumnsBySchema_isSome (schema : List Column) (corCols : List Nat) (h : Heap) :
    ∃ ret h2, extractCorColumnsBySchema schema corCols h = some (ret, h2)
      ∧ ret.length = schema.length := by
  obtain ⟨res, h2, hres, hlen⟩ :=
    extractLoop_isSome schema corCols (List.replicate schema.length none) h (by simp)
  refine ⟨shrinkLoop res.length 0 0 res, h2, ?_, ?_⟩
  · simp only [extractCorColumnsBySchema, hres]
  · rw [shrinkLoop_length, hlen]

/-! ### `decorrelate` -/

theorem LogicalPlan.isSelection_SetParents {Expr : Type} (p : LogicalPlan Expr)
    (par : List String) : (p.SetParents par).isSelection = p.isSelection := by
  cases p <;> rfl

theorem LogicalPlan.noSelectionUnderApply_SetParents {Expr : Type} (p : LogicalPlan Expr)
    (par : List String) :
    (p.SetParents par).noSelectionUnderApply = p.noSelectionUnderApply := by
  cases p <;> rfl

theorem LogicalPlan.hasApply_SetParents {Expr : Type} (p : LogicalPlan Expr)
    (par : List String) : (p.SetParents par).hasApply = p.hasApply := by
  cases p <;> rfl

theorem LogicalPlan.eraseParents_SetParents {Expr : Type} (p : LogicalPlan Expr)
    (par : List String) : (p.SetParents par).eraseParents = p.eraseParents := by
  cases p <;> rfl

theorem LogicalPlan.stackedSelections_SetParents {Expr : Type} (p : LogicalPlan Expr)
    (par : List String) : (p.SetParents par).stackedSelections = p.stackedSelections := by
  cases p <;> rfl

theorem LogicalPlan.parents_SetParents {Expr : Type} (p : LogicalPlan Expr)
    (par : List String) : (p.SetParents par).base.parents = par := by
  cases p <;> rfl

theorem decorrelate_Apply_Selection {Expr : Type} (env : Collaborators Expr) (b : basePlan)
    (j : JoinNode Expr) (cc corCols : List (Option CorrelatedColumn))
    (outerPlan q : LogicalPlan Expr) (sb : basePlan) (conds : List Expr) (h h1 : Heap)
    (hext : extractCorColumnsBySchema outerPlan.GetSchema.Columns
      (env.extractCorrelatedCols (.Selection sb conds q)) h = some (corCols, h1))
    (hne : corCols.length ≠ 0) :
    decorrelate env (.Apply b j cc outerPlan (.Selection sb conds q)) h
      = decorrelate env
          (.Apply b (j.attachOnConds (conds.map fun cond =>
              env.Decorrelate cond outerPlan.GetSchema.Columns))
            corCols outerPlan (q.SetParents [b.id])) h1 := by
  rw [decorrelate]
  simp only [hext, hne, if_false]

theorem decorrelate_spec {Expr : Type} (env : Collaborators Expr) :
    ∀ (n : Nat) (p : LogicalPlan Expr) (h : Heap), p.size ≤ n →
      ∃ p2 h2, decorrelate env p h = some (p2, h2)
        ∧ p2.noSelectionUnderApply = true
        ∧ (p2.isSelection = true → p.isSelection = true)
        ∧ (p.hasApply = false → p2.eraseParents = p.eraseParents ∧ h2 = h) := by
  intro n
  induction n with
  | zero =>
    intro p h hp
    cases p <;> simp [LogicalPlan.size] at hp
  | succ n ih =>
    intro p h hp
    cases p with
    | DataSource b =>
      rw [decorrelate]
      exact ⟨_, _, rfl, rfl, id, fun _ => ⟨rfl, rfl⟩⟩
    | Unary k b c =>
      simp only [LogicalPlan.size] at hp
      obtain ⟨c2, h2, hc, hns, _, hsame⟩ := ih c h (by omega)
      rw [decorrelate]
      simp only [hc]
      refine ⟨_, _, rfl, ?_, ?_, ?_⟩
      · simp only [LogicalPlan.noSelectionUnderApply,
          LogicalPlan.noSelectionUnderApply_SetParents, hns]
      · intro hsel
        simp [LogicalPlan.isSelection] at hsel
      · intro hna
        simp only [LogicalPlan.hasApply] at hna
        obtain ⟨he, hh⟩ := hsame hna
        simp only [LogicalPlan.eraseParents, LogicalPlan.eraseParents_SetParents, he, hh,
          and_self]
    | Selection b conds c =>
      simp only [LogicalPlan.size] at hp
      obtain ⟨c2, h2, hc, hns, _, hsame⟩ := ih c h (by omega)
      rw [decorrelate]
      simp only [hc]
      refine ⟨_, _, rfl, ?_, ?_, ?_⟩
      · simp only [LogicalPlan.noSelectionUnderApply,
          LogicalPlan.noSelectionUnderApply_SetParents, hns]
      · intro _
        rfl
      · intro hna
        simp only [LogicalPlan.hasApply] at hna
        obtain ⟨he, hh⟩ := hsame hna
        simp only [LogicalPlan.eraseParents, LogicalPlan.eraseParents_SetParents, he, hh,
          and_self]
    | Join b j l r =>
      simp only [LogicalPlan.size] at hp
      obtain ⟨l2, h2, hl, hnsl, _, hsamel⟩ := ih l h (by omega)
      obtain ⟨r2, h3, hr, hnsr, _, hsamer⟩ := ih r h2 (by omega)
      rw [decorrelate]
      simp only [hl, hr]
      refine ⟨_, _, rfl, ?_, ?_, ?_⟩
      · simp only [LogicalPlan.noSelectionUnderApply,
          LogicalPlan.noSelectionUnderApply_SetParents, hnsl, hnsr, Bool.and_self]
      · intro hsel
        simp [LogicalPlan.isSelection] at hsel
      · intro hna
        simp only [LogicalPlan.hasApply, Bool.or_eq_false_iff] at hna
        obtain ⟨hel, hhl⟩ := hsamel hna.1
        obtain ⟨her, hhr⟩ := hsamer hna.2
        simp only [LogicalPlan.eraseParents, LogicalPlan.eraseParents_SetParents, hel, her,
          hhr, hhl, and_self]
    | Apply b j cc o i =>
      simp only [LogicalPlan.size] at hp
      obtain ⟨corCols, h1, hext, _⟩ := extractCorColumnsBySchema_isSome o.GetSchema.Columns
        (env.extractCorrelatedCols i) h
      by_cases hzero : corCols.length = 0
      · obtain ⟨o2, h2, ho, hnso, _, _⟩ := ih (o.SetParents [b.id]) h1
          (by rw [LogicalPlan.size_SetParents]; omega)
        obtain ⟨i2, h3, hi, hnsi, _, _⟩ := ih (i.SetParents [b.id]) h2
          (by rw [LogicalPlan.size_SetParents]; omega)
        rw [decorrelate]
        simp only [hext, hzero, if_true, ho, hi]
        refine ⟨_, _, rfl, ?_, ?_, ?_⟩
        · simp only [LogicalPlan.noSelectionUnderApply,
            LogicalPlan.noSelectionUnderApply_SetParents, hnso, hnsi, Bool.and_self]
        · intro hsel
          simp [LogicalPlan.isSelection] at hsel
        · intro hna
          simp [LogicalPlan.hasApply] at hna
      · have hgeneric : ∀ inner : LogicalPlan Expr, inner.isSelection = false →
            inner.size ≤ n →
            (∃ o2 h2 i2 h3, decorrelate env o h1 = some (o2, h2)
              ∧ decorrelate env inner h2 = some (i2, h3)
              ∧ o2.noSelectionUnderApply = true ∧ i2.noSelectionUnderApply = true
              ∧ i2.isSelection = false) := by
          intro inner hsel hsz
          obtain ⟨o2, h2, ho, hnso, _, _⟩ := ih o h1 (by omega)
          obtain ⟨i2, h3, hi, hnsi, hisel, _⟩ := ih inner h2 hsz
          refine ⟨o2, h2, i2, h3, ho, hi, hnso, hnsi, ?_⟩
          cases hb : i2.isSelection with
          | false => rfl
          | true =>
            rw [hisel hb] at hsel
            exact absurd hsel (by decide)
        have hfinish : ∀ (o2 i2 : LogicalPlan Expr) (h3 : Heap),
            o2.noSelectionUnderApply = true → i2.noSelectionUnderApply = true →
            i2.isSelection = false →
            ∃ p2 h4, some (LogicalPlan.Apply b j corCols (o2.SetParents [b.id])
                (i2.SetParents [b.id]), h3) = some (p2, h4)
              ∧ p2.noSelectionUnderApply = true
              ∧ (p2.isSelection = true → (LogicalPlan.Apply b j cc o i).isSelection = true)
              ∧ ((LogicalPlan.Apply b j cc o i).hasApply = false →
                  p2.eraseParents = (LogicalPlan.Apply b j cc o i).eraseParents ∧ h4 = h) := by
          intro o2 i2 h3 hnso hnsi hisel
          refine ⟨_, _, rfl, ?_, ?_, ?_⟩
          · simp only [LogicalPlan.noSelectionUnderApply, LogicalPlan.isSelection_SetParents,
              LogicalPlan.noSelectionUnderApply_SetParents, hnso, hnsi, hisel, Bool.not_false,
              Bool.and_self]
          · intro hsel
            simp [LogicalPlan.isSelection] at hsel
          · intro hna
            simp [LogicalPlan.hasApply] at hna
        cases i with
        | Selection sb conds q =>
          rw [decorrelate_Apply_Selection env b j cc corCols o q sb conds h h1 hext hzero]
          simp only [LogicalPlan.size] at hp
          obtain ⟨p2, h2, hd, hns, hsel, _⟩ := ih
            (.Apply b (j.attachOnConds (conds.map fun cond =>
                env.Decorrelate cond o.GetSchema.Columns)) corCols o (q.SetParents [b.id])) h1
            (by simp only [LogicalPlan.size, LogicalPlan.size_SetParents]; omega)
          refine ⟨p2, h2, hd, hns, ?_, ?_⟩
          · intro hs
            have := hsel hs
            simp [LogicalPlan.isSelection] at this
          · intro hna
            simp [LogicalPlan.hasApply] at hna
        | DataSource ib =>
          obtain ⟨o2, h2, i2, h3, ho, hi, hnso, hnsi, hisel⟩ :=
            hgeneric (.DataSource ib) rfl (by omega)
          rw [decorrelate]
          simp only [hext, hzero, if_false, ho, hi]
          exact hfinish o2 i2 h3 hnso hnsi hisel
        | Unary k ib ic =>
          obtain ⟨o2, h2, i2, h3, ho, hi, hnso, hnsi, hisel⟩ :=
            hgeneric (.Unary k ib ic) rfl (by omega)
          rw [decorrelate]
          simp only [hext, hzero, if_false, ho, hi]
          exact hfinish o2 i2 h3 hnso hnsi hisel
        | Join ib ij il ir =>
          obtain ⟨o2, h2, i2, h3, ho, hi, hnso, hnsi, hisel⟩ :=
            hgeneric (.Join ib ij il ir) rfl (by omega)
          rw [decorrelate]
          simp only [hext, hzero, if_false, ho, hi]
          exact hfinish o2 i2 h3 hnso hnsi hisel
        | Apply ib ij icc io ii =>
          obtain ⟨o2, h2, i2, h3, ho, hi, hnso, hnsi, hisel⟩ :=
            hgeneric (.Apply ib ij icc io ii) rfl (by omega)
          rw [decorrelate]
          simp only [hext, hzero, if_false, ho, hi]
          exact hfinish o2 i2 h3 hnso hnsi hisel

/-- C16: `decorrelate` returns a plan on every plan tree and heap (the function is total:
it is defined by recursion on the number of nodes). When it takes the Selection-absorption
branch on an Apply, its self-call is on an Apply with the same outer child whose inner side
has exactly one Selection layer fewer stacked under the Apply, and with fewer nodes; the
children of any Apply have fewer nodes than the Apply. -/
theorem decorrelate_terminates {Expr : Type} (env : Collaborators Expr) (p : LogicalPlan Expr)
    (h : Heap) :
    (∃ p2 h2, decorrelate env p h = some (p2, h2))
    ∧ (∀ b j cc outerPlan sb conds q corCols h1,
        p = .Apply b j cc outerPlan (.Selection sb conds q) →
        extractCorColumnsBySchema outerPlan.GetSchema.Columns
          (env.extractCorrelatedCols (.Selection sb conds q)) h = some (corCols, h1) →
        corCols.length ≠ 0 →
        decorrelate env p h
            = decorrelate env
                (.Apply b (j.attachOnConds (conds.map fun cond =>
                    env.Decorrelate cond outerPlan.GetSchema.Columns))
                  corCols outerPlan (q.SetParents [b.id])) h1
          ∧ (q.SetParents [b.id]).stackedSelections + 1
              = (LogicalPlan.Selection sb conds q).stackedSelections
          ∧ (q.SetParents [b.id]).stackedSelections
              < (LogicalPlan.Selection sb conds q).stackedSelections
          ∧ (LogicalPlan.Apply b (j.attachOnConds (conds.map fun cond =>
                env.Decorrelate cond outerPlan.GetSchema.Columns))
              corCols outerPlan (q.SetParents [b.id])).size < p.size)
    ∧ (∀ b j cc outerPlan innerPlan, p = .Apply b j cc outerPlan innerPlan →
        outerPlan.size < p.size ∧ innerPlan.size < p.size) := by
  refine ⟨?_, ?_, ?_⟩
  · obtain ⟨p2, h2, hd, _⟩ := decorrelate_spec env p.size p h (Nat.le_refl _)
    exact ⟨p2, h2, hd⟩
  · intro b j cc outerPlan sb conds q corCols h1 hp hext hne
    subst hp
    refine ⟨decorrelate_Apply_Selection env b j cc corCols outerPlan q sb conds h h1 hext hne,
      ?_, ?_, ?_⟩
    · simp only [LogicalPlan.stackedSelections, LogicalPlan.stackedSelections_SetParents]
    · simp only [LogicalPlan.stackedSelections, LogicalPlan.stackedSelections_SetParents]
      omega
    · simp only [LogicalPlan.size, LogicalPlan.size_SetParents]
      omega
  · intro b j cc outerPlan innerPlan hp
    subst hp
    simp only [LogicalPlan.size]
    omega

/-- C16 on the Apply over a Selection over `t2`: the binding list found is not empty, and
the self-call is on the Apply whose inner side is `t2`, with no Selection layer left. -/
theorem decorrelate_terminates_witness :
    (extractCorColumnsBySchema [mkCol "t1" 0 "a"] [0] heapA).map Prod.fst
        = some [some ⟨mkCol "t1" 0 "a", 100⟩]
    ∧ ((LogicalPlan.DataSource
          { id := "t2", schema := ⟨[mkCol "t2" 0 "c"], []⟩, parents := ["sel"] } :
            LogicalPlan Nat).SetParents ["apply"]).stackedSelections
        < selectionOverT2.stackedSelections := by
  refine ⟨by decide, ?_⟩
  have hext : ∃ h1, extractCorColumnsBySchema [mkCol "t1" 0 "a"] [0] heapA
      = some ([some ⟨mkCol "t1" 0 "a", 100⟩], h1) := by
    simp [extractCorColumnsBySchema, extractLoop, shrinkLoop, heapA, GetColumnIndexFrom]
  obtain ⟨h1, hext⟩ := hext
  exact ((decorrelate_terminates selectionCorCols applyOverSelection heapA).2.1
    _ _ _ _ _ _ _ _ h1 rfl hext (by simp)).2.2.1

/-- C17: on an Apply whose binding list (as `extractCorColumnsBySchema` returns it) is not
empty and whose inner child is a Selection with conditions `conds` over `q`, `decorrelate`
continues as `decorrelate` on the Apply with the same base, join kind and outer child, whose
condition list is the old one followed by `Decorrelate(c, outer schema)` for each `c` of
`conds` in order (as many as `conds`), whose inner child is `q` with its parent set to the
Apply (the Selection node is gone), and whose binding list is the one just found. -/
theorem decorrelate_absorbs_Selection {Expr : Type} (env : Collaborators Expr) (b : basePlan)
    (j : JoinNode Expr) (cc corCols : List (Option CorrelatedColumn))
    (outerPlan q : LogicalPlan Expr) (sb : basePlan) (conds : List Expr) (h h1 : Heap)
    (hext : extractCorColumnsBySchema outerPlan.GetSchema.Columns
      (env.extractCorrelatedCols (.Selection sb conds q)) h = some (corCols, h1))
    (hne : corCols ≠ []) :
    decorrelate env (.Apply b j cc outerPlan (.Selection sb conds q)) h
        = decorrelate env
            (.Apply b
              { JoinType := j.JoinType,
                onConds := j.onConds
                  ++ conds.map fun cond => env.Decorrelate cond outerPlan.GetSchema.Columns }
              corCols outerPlan (q.SetParents [b.id])) h1
    ∧ (conds.map fun cond => env.Decorrelate cond outerPlan.GetSchema.Columns).length
        = conds.length
    ∧ (q.SetParents [b.id]).base.parents = [b.id]
    ∧ (q.SetParents [b.id]).eraseParents = q.eraseParents
    ∧ (q.SetParents [b.id]).stackedSelections = q.stackedSelections := by
  have hlen : corCols.length ≠ 0 := by
    cases corCols with
    | nil => exact absurd rfl hne
    | cons c cs => simp
  exact ⟨decorrelate_Apply_Selection env b j cc corCols outerPlan q sb conds h h1 hext hlen,
    List.length_map _ _, LogicalPlan.parents_SetParents q _,
    LogicalPlan.eraseParents_SetParents q _, LogicalPlan.stackedSelections_SetParents q _⟩

/-- C17 on the Apply over a Selection over `t2`, with conditions 1, 2 and join condition 0:
the plan returned is the Apply with conditions 0, 11, 12 whose inner child is `t2`. -/
theorem decorrelate_absorbs_Selection_witness :
    (decorrelate selectionCorCols applyOverSelection heapA).map Prod.fst
      = some (.Apply
          { id := "apply", schema := ⟨[mkCol "t1" 0 "a", mkCol "t2" 0 "c"], []⟩, parents := [] }
          { JoinType := .LeftOuterJoin, onConds := [0, 11, 12] } [none]
          (.DataSource { id := "t1", schema := ⟨[mkCol "t1" 0 "a"], []⟩, parents := ["apply"] })
          (.DataSource { id := "t2", schema := ⟨[mkCol "t2" 0 "c"], []⟩, parents := ["apply"] })) := by
  have hext : ∃ h1, extractCorColumnsBySchema [mkCol "t1" 0 "a"] [0] heapA
      = some ([some ⟨mkCol "t1" 0 "a", 100⟩], h1) := by
    simp [extractCorColumnsBySchema, extractLoop, shrinkLoop, heapA, GetColumnIndexFrom]
  obtain ⟨h1, hext⟩ := hext
  rw [applyOverSelection, selectionOverT2,
    (decorrelate_absorbs_Selection selectionCorCols
      { id := "apply", schema := ⟨[mkCol "t1" 0 "a", mkCol "t2" 0 "c"], []⟩, parents := [] }
      { JoinType := .LeftOuterJoin, onConds := [0] } [] [some ⟨mkCol "t1" 0 "a", 100⟩]
      (.DataSource { id := "t1", schema := ⟨[mkCol "t1" 0 "a"], []⟩, parents := ["apply"] })
      (.DataSource { id := "t2", schema := ⟨[mkCol "t2" 0 "c"], []⟩, parents := ["sel"] })
      { id := "sel", schema := ⟨[mkCol "t2" 0 "c"], []⟩, parents := ["apply"] } [1, 2]
      heapA h1 hext (by simp)).1]
  simp [decorrelate, selectionCorCols, extractCorColumnsBySchema, extractLoop, shrinkLoop,
    LogicalPlan.GetSchema, LogicalPlan.base, LogicalPlan.SetParents, LogicalPlan.isSelection]

/-- C20: `decorrelate` returns a plan in which no Apply node has a Selection as its inner
child; and when the input contains no Apply node, the plan returned is the input up to the
parent back-references (same shape, node kinds, schemas and conditions) and the heap is
unchanged. -/
theorem decorrelate_no_Selection_under_Apply {Expr : Type} (env : Collaborators Expr)
    (p : LogicalPlan Expr) (h : Heap) :
    ∃ p2 h2, decorrelate env p h = some (p2, h2)
      ∧ p2.noSelectionUnderApply = true
      ∧ (p.hasApply = false → p2.eraseParents = p.eraseParents ∧ h2 = h) := by
  obtain ⟨p2, h2, hd, hns, _, hsame⟩ := decorrelate_spec env p.size p h (Nat.le_refl _)
  exact ⟨p2, h2, hd, hns, hsame⟩

/-- C20 on the Selection over `t2`, a plan without an Apply: the plan returned has the same
shape, kinds and conditions. -/
theorem decorrelate_no_Selection_under_Apply_witness :
    selectionOverT2.hasApply = false
    ∧ ∃ p2 h2, decorrelate selectionCorCols selectionOverT2 heapA = some (p2, h2)
        ∧ p2.eraseParents = selectionOverT2.eraseParents := by
  refine ⟨rfl, ?_⟩
  obtain ⟨p2, h2, hd, _, hsame⟩ :=
    decorrelate_no_Selection_under_Apply selectionCorCols selectionOverT2 heapA
  exact ⟨p2, h2, hd, (hsame rfl).1⟩

/-! ### Data slots after `extractCorColumnsBySchema` -/

theorem Heap.setData_cor_ne (h : Heap) (p q d : Nat) (hne : q ≠ p) :
    (h.setData p d).cor q = h.cor q := by
  simp [Heap.setData, Function.update, hne]

theorem Heap.setData_cor_same (h : Heap) (p d : Nat) :
    (h.setData p d).cor p = { Column := (h.cor p).Column, Data := d } := by
  simp [Heap.setData, Function.update]

theorem extractLoop_cons_skip (schema : List Column) (p : Nat) (ps : List Nat)
    (res : List (Option CorrelatedColumn)) (h : Heap)
    (hidx : GetColumnIndexFrom (h.cor p).Column schema 0 = -1) :
    extractLoop schema (p :: ps) res h = extractLoop schema ps res h := by
  simp only [extractLoop]
  rw [if_neg (by simpa using hidx)]

theorem extractLoop_cons_fresh (schema : List Column) (p : Nat) (ps : List Nat)
    (res : List (Option CorrelatedColumn)) (h : Heap) (c : Column) (n : Nat)
    (hidx : GetColumnIndexFrom (h.cor p).Column schema 0 = (n : Int))
    (hres : res[n]? = some none) (hcol : schema[n]? = some c) :
    extractLoop schema (p :: ps) res h
      = extractLoop schema ps (res.set n (some { Column := c, Data := h.nextDatum }))
          (Heap.setData { cor := h.cor, nextDatum := h.nextDatum + 1 } p h.nextDatum) := by
  simp only [extractLoop, hidx, Int.toNat_ofNat]
  rw [if_pos (by omega), hres]
  simp only [hcol]

theorem extractLoop_cons_reuse (schema : List Column) (p : Nat) (ps : List Nat)
    (res : List (Option CorrelatedColumn)) (h : Heap) (b : CorrelatedColumn) (n : Nat)
    (hidx : GetColumnIndexFrom (h.cor p).Column schema 0 = (n : Int))
    (hres : res[n]? = some (some b)) :
    extractLoop schema (p :: ps) res h = extractLoop schema ps res (h.setData p b.Data) := by
  simp only [extractLoop, hidx, Int.toNat_ofNat]
  rw [if_pos (by omega), hres]

theorem extractLoop_step_found (schema : List Column) (h0 : Heap) (p : Nat) (ps : List Nat)
    (res : List (Option CorrelatedColumn)) (hc : Heap) (n : Nat)
    (hinv : ExtractInv schema h0 res hc) (hn : resolvedIndex schema h0 p = (n : Int)) :
    ∃ res1 h1, extractLoop schema (p :: ps) res hc = extractLoop schema ps res1 h1
      ∧ ExtractInv schema h0 res1 h1
      ∧ (∀ (i : Nat) (b : CorrelatedColumn), res[i]? = some (some b) → res1[i]? = some (some b))
      ∧ (∀ q, slotMatches schema h0 res hc q → slotMatches schema h0 res1 h1 q)
      ∧ slotMatches schema h0 res1 h1 p
      ∧ (∀ (i : Nat) (b : CorrelatedColumn), res1[i]? = some (some b) →
          res[i]? = some (some b) ∨ i = n) := by
  have hidx : GetColumnIndexFrom (hc.cor p).Column schema 0 = (n : Int) := by
    rw [hinv.col p]
    exact hn
  have hnlt : n < schema.length := by
    have h1 := GetColumnIndexFrom_nonneg (hc.cor p).Column schema 0 (by rw [hidx]; omega)
    rw [hidx, Int.toNat_ofNat] at h1
    omega
  have hpn : (resolvedIndex schema h0 p).toNat = n := by rw [hn, Int.toNat_ofNat]
  have hpne : resolvedIndex schema h0 p ≠ -1 := by rw [hn]; omega
  have hnres : n < res.length := by rw [hinv.len]; exact hnlt
  have hgetres : res[n]? = some res[n] := List.getElem?_eq_getElem hnres
  have hgetcol : schema[n]? = some schema[n] := List.getElem?_eq_getElem hnlt
  cases hrn : res[n] with
  | none =>
    rw [hrn] at hgetres
    refine ⟨res.set n (some { Column := schema[n], Data := hc.nextDatum }),
      Heap.setData { cor := hc.cor, nextDatum := hc.nextDatum + 1 } p hc.nextDatum,
      extractLoop_cons_fresh schema p ps res hc schema[n] n hidx hgetres hgetcol,
      ?_, ?_, ?_, ?_, ?_⟩
    · refine ⟨by rw [List.length_set, hinv.len], ?_, ?_, ?_, ?_⟩
      · intro q
        by_cases hq : q = p
        · rw [hq, Heap.setData_cor_same]
          exact hinv.col p
        · rw [Heap.setData_cor_ne _ _ _ _ hq]
          exact hinv.col q
      · intro i b hb
        by_cases hi : n = i
        · rw [← hi, List.getElem?_set_self (by rw [hinv.len]; exact hnlt)] at hb
          simp only [Option.some.injEq] at hb
          rw [← hb, ← hi]
          exact ⟨hgetcol, Nat.lt_succ_self _⟩
        · rw [List.getElem?_set_ne hi] at hb
          obtain ⟨h1, h2⟩ := hinv.bind i b hb
          exact ⟨h1, Nat.lt_succ_of_lt h2⟩
      · intro i j b1 b2 hb1 hb2 hij
        by_cases hi : n = i
        · have hj : n ≠ j := fun hj => hij (hi.symm.trans hj)
          rw [← hi, List.getElem?_set_self (by rw [hinv.len]; exact hnlt)] at hb1
          rw [List.getElem?_set_ne hj] at hb2
          simp only [Option.some.injEq] at hb1
          have h2 := (hinv.bind j b2 hb2).2
          rw [← hb1]
          simp only
          omega
        · rw [List.getElem?_set_ne hi] at hb1
          by_cases hj : n = j
          · rw [← hj, List.getElem?_set_self (by rw [hinv.len]; exact hnlt)] at hb2
            simp only [Option.some.injEq] at hb2
            have h1 := (hinv.bind i b1 hb1).2
            rw [← hb2]
            simp only
            omega
          · rw [List.getElem?_set_ne hj] at hb2
            exact hinv.distinct i j b1 b2 hb1 hb2 hij
      · intro q hq
        have hqp : q ≠ p := fun hqp => hpne (hqp ▸ hq)
        rw [Heap.setData_cor_ne _ _ _ _ hqp]
        exact hinv.keep q hq
    · intro i b hb
      have hi : n ≠ i := by
        intro hi
        rw [← hi, hgetres] at hb
        exact absurd hb (by simp)
      rw [List.getElem?_set_ne hi]
      exact hb
    · rintro q ⟨b, hb, hd⟩
      have hqp : q ≠ p := by
        intro hqp
        rw [hqp, hpn, hgetres] at hb
        exact absurd hb (by simp)
      have hi : n ≠ (resolvedIndex schema h0 q).toNat := by
        intro hi
        rw [← hi, hgetres] at hb
        exact absurd hb (by simp)
      refine ⟨b, ?_, ?_⟩
      · rw [List.getElem?_set_ne hi]
        exact hb
      · rw [Heap.setData_cor_ne _ _ _ _ hqp]
        exact hd
    · refine ⟨{ Column := schema[n], Data := hc.nextDatum }, ?_, ?_⟩
      · rw [hpn, List.getElem?_set_self (by rw [hinv.len]; exact hnlt)]
      · rw [Heap.setData_cor_same]
    · intro i b hb
      by_cases hi : n = i
      · exact Or.inr hi.symm
      · rw [List.getElem?_set_ne hi] at hb
        exact Or.inl hb
  | some b0 =>
    rw [hrn] at hgetres
    refine ⟨res, hc.setData p b0.Data,
      extractLoop_cons_reuse schema p ps res hc b0 n hidx hgetres, ?_, fun _ _ hb => hb, ?_, ?_,
      fun _ _ hb => Or.inl hb⟩
    · refine ⟨hinv.len, ?_, hinv.bind, hinv.distinct, ?_⟩
      · intro q
        by_cases hq : q = p
        · rw [hq, Heap.setData_cor_same]
          exact hinv.col p
        · rw [Heap.setData_cor_ne _ _ _ _ hq]
          exact hinv.col q
      · intro q hq
        have hqp : q ≠ p := fun hqp => hpne (hqp ▸ hq)
        rw [Heap.setData_cor_ne _ _ _ _ hqp]
        exact hinv.keep q hq
    · rintro q ⟨b, hb, hd⟩
      by_cases hqp : q = p
      · rw [hqp, hpn, hgetres] at hb
        simp only [Option.some.injEq] at hb
        refine ⟨b0, by rw [hqp, hpn, hgetres], ?_⟩
        rw [hqp, Heap.setData_cor_same]
      · exact ⟨b, hb, by rw [Heap.setData_cor_ne _ _ _ _ hqp]; exact hd⟩
    · exact ⟨b0, by rw [hpn, hgetres], by rw [Heap.setData_cor_same]⟩

theorem extractLoop_spec (schema : List Column) (h0 : Heap) (ps : List Nat) :
    ∀ (res : List (Option CorrelatedColumn)) (hc : Heap), ExtractInv schema h0 res hc →
      ∃ res2 h2, extractLoop schema ps res hc = some (res2, h2)
        ∧ ExtractInv schema h0 res2 h2
        ∧ (∀ (i : Nat) (b : CorrelatedColumn), res[i]? = some (some b) →
            res2[i]? = some (some b))
        ∧ (∀ q, slotMatches schema h0 res hc q → slotMatches schema h0 res2 h2 q)
        ∧ (∀ p ∈ ps, resolvedIndex schema h0 p ≠ -1 → slotMatches schema h0 res2 h2 p)
        ∧ (∀ (i : Nat) (b : CorrelatedColumn), res2[i]? = some (some b) →
            res[i]? = some (some b) ∨ ∃ p ∈ ps, resolvedIndex schema h0 p = (i : Int)) := by
  induction ps with
  | nil =>
    intro res hc hinv
    exact ⟨res, hc, rfl, hinv, fun _ _ hb => hb, fun _ hq => hq, by simp,
      fun _ _ hb => Or.inl hb⟩
  | cons p ps ih =>
    intro res hc hinv
    by_cases hidx : resolvedIndex schema h0 p = -1
    · have hskip : GetColumnIndexFrom (hc.cor p).Column schema 0 = -1 := by
        rw [hinv.col p]
        exact hidx
      rw [extractLoop_cons_skip schema p ps res hc hskip]
      obtain ⟨res2, h2, he, hinv2, hper, hpres, hmatch, horig⟩ := ih res hc hinv
      refine ⟨res2, h2, he, hinv2, hper, hpres, ?_, ?_⟩
      · intro q hq hqi
        rcases List.mem_cons.1 hq with h1 | h1
        · rw [h1] at hqi
          exact absurd hidx hqi
        · exact hmatch q h1 hqi
      · intro i b hb
        rcases horig i b hb with h1 | ⟨q, hq, hqi⟩
        · exact Or.inl h1
        · exact Or.inr ⟨q, List.mem_cons_of_mem _ hq, hqi⟩
    · obtain ⟨n, hn⟩ : ∃ n : Nat, resolvedIndex schema h0 p = (n : Int) := by
        rcases GetColumnIndexFrom_range (h0.cor p).Column schema 0 with h1 | ⟨k, _, h1⟩
        · exact absurd h1 hidx
        · exact ⟨0 + k, h1⟩
      obtain ⟨res1, h1, hstep, hinv1, hper1, hpres1, hmatch1, horig1⟩ :=
        extractLoop_step_found schema h0 p ps res hc n hinv hn
      obtain ⟨res2, h2, he, hinv2, hper2, hpres2, hmatch2, horig2⟩ := ih res1 h1 hinv1
      refine ⟨res2, h2, hstep.trans he, hinv2, fun i b hb => hper2 i b (hper1 i b hb),
        fun q hq => hpres2 q (hpres1 q hq), ?_, ?_⟩
      · intro q hq hqi
        rcases List.mem_cons.1 hq with h3 | h3
        · rw [h3]
          exact hpres2 p hmatch1
        · exact hmatch2 q h3 hqi
      · intro i b hb
        rcases horig2 i b hb with h3 | ⟨q, hq, hqi⟩
        · rcases horig1 i b h3 with h4 | h4
          · exact Or.inl h4
          · exact Or.inr ⟨p, by simp, by rw [hn, h4]⟩
        · exact Or.inr ⟨q, List.mem_cons_of_mem _ hq, hqi⟩

theorem shrinkLoop_keeps (orig : List (Option CorrelatedColumn)) :
    ∀ (todo i length : Nat) (cur : List (Option CorrelatedColumn)),
      length ≤ i → i + todo = cur.length →
      (∀ k, i ≤ k → cur[k]? = orig[k]?) →
      (∀ (k : Nat) (b : CorrelatedColumn), k < i → orig[k]? = some (some b) →
        ∃ m, m < length ∧ cur[m]? = some (some b)) →
      ∀ (k : Nat) (b : CorrelatedColumn), orig[k]? = some (some b) →
        some b ∈ shrinkLoop todo i length cur := by
  intro todo
  induction todo with
  | zero =>
    intro i length cur _ hlen hsuf hpre k b hk
    simp only [shrinkLoop]
    by_cases hki : k < i
    · obtain ⟨m, _, hm⟩ := hpre k b hki hk
      exact List.getElem?_mem hm
    · have h1 := hsuf k (by omega)
      rw [hk] at h1
      exact List.getElem?_mem h1
  | succ todo ih =>
    intro i length cur hle hlen hsuf hpre k b hk
    have hi := hsuf i (Nat.le_refl _)
    simp only [shrinkLoop]
    split
    · next col hcur =>
      apply ih (i + 1) (length + 1) _ (by omega) (by rw [List.length_set]; omega) _ _ k b hk
      · intro k2 hk2
        rw [List.getElem?_set_ne (by omega)]
        exact hsuf k2 (by omega)
      · intro k2 b2 hk2 hb2
        by_cases hlt : k2 < i
        · obtain ⟨m, hm, hmb⟩ := hpre k2 b2 hlt hb2
          exact ⟨m, by omega, by rw [List.getElem?_set_ne (by omega)]; exact hmb⟩
        · have hk2i : k2 = i := by omega
          rw [hk2i, ← hi, hcur] at hb2
          simp only [Option.some.injEq] at hb2
          refine ⟨length, by omega, ?_⟩
          rw [List.getElem?_set_self (by omega), hb2]
    · next hnot =>
      apply ih (i + 1) length cur (by omega) (by omega) _ _ k b hk
      · intro k2 hk2
        exact hsuf k2 (by omega)
      · intro k2 b2 hk2 hb2
        by_cases hlt : k2 < i
        · exact hpre k2 b2 hlt hb2
        · have hk2i : k2 = i := by omega
          rw [hk2i, ← hi] at hb2
          exact absurd hb2 (hnot b2)

theorem shrinkLoop_subset (todo i length : Nat) (cur : List (Option CorrelatedColumn)) :
    ∀ x ∈ shrinkLoop todo i length cur, x ∈ cur := by
  induction todo generalizing i length cur with
  | zero =>
    intro x hx
    exact hx
  | succ todo ih =>
    intro x hx
    simp only [shrinkLoop] at hx
    split at hx
    · next col hcur =>
      have h1 := ih _ _ _ x hx
      rcases List.mem_or_eq_of_mem_set h1 with h2 | h2
      · exact h2
      · rw [h2]
        exact List.getElem?_mem hcur
    · exact ih _ _ _ x hx

theorem ExtractInv_initial (schema : List Column) (h : Heap) :
    ExtractInv schema h (List.replicate schema.length none) h := by
  have hnone : ∀ (i : Nat) (b : CorrelatedColumn),
      (List.replicate schema.length (none : Option CorrelatedColumn))[i]? ≠ some (some b) := by
    intro i b hb
    rw [List.getElem?_replicate] at hb
    split at hb <;> simp at hb
  exact ⟨by simp, fun _ => rfl, fun i b hb => absurd hb (hnone i b),
    fun i _ b1 _ hb1 _ _ => absurd hb1 (hnone i b1), fun _ _ => rfl⟩

/-- C18: `extractCorColumnsBySchema` returns, and with `res` the value of `resultCorCols`
at the end of the first loop, `ret` the list returned and `h2` the heap afterwards:
every reference of the inner plan whose column is found at outer-schema position `i` holds
the data slot of the binding at position `i` of `res`, which is the binding of the outer
column `schema[i]` and is in the list returned; two references that resolve to the same
position hold the same slot; two references that resolve to different positions hold
different slots; a reference whose column is not found is left as it was; and every binding,
in `res` and in the list returned, is at a position some reference resolves to. -/
theorem extractCorColumnsBySchema_slot_sharing (schema : List Column) (corCols : List Nat)
    (h : Heap) :
    ∃ res ret h2,
      extractLoop schema corCols (List.replicate schema.length none) h = some (res, h2)
      ∧ extractCorColumnsBySchema schema corCols h = some (ret, h2)
      ∧ (∀ p ∈ corCols, ∀ i : Nat, resolvedIndex schema h p = (i : Int) →
          ∃ b, res[i]? = some (some b) ∧ some b ∈ ret ∧ schema[i]? = some b.Column
            ∧ (h2.cor p).Data = b.Data)
      ∧ (∀ p ∈ corCols, ∀ q ∈ corCols, resolvedIndex schema h p ≠ -1 →
          resolvedIndex schema h p = resolvedIndex schema h q →
          (h2.cor p).Data = (h2.cor q).Data)
      ∧ (∀ p ∈ corCols, ∀ q ∈ corCols, resolvedIndex schema h p ≠ -1 →
          resolvedIndex schema h q ≠ -1 →
          resolvedIndex schema h p ≠ resolvedIndex schema h q →
          (h2.cor p).Data ≠ (h2.cor q).Data)
      ∧ (∀ p, resolvedIndex schema h p = -1 → h2.cor p = h.cor p)
      ∧ (∀ (i : Nat) (b : CorrelatedColumn), res[i]? = some (some b) →
          ∃ p ∈ corCols, resolvedIndex schema h p = (i : Int))
      ∧ (∀ b, some b ∈ ret →
          ∃ (i : Nat), res[i]? = some (some b)
            ∧ ∃ p ∈ corCols, resolvedIndex schema h p = (i : Int)) := by
  obtain ⟨res, h2, hloop, hinv, _, _, hmatch, horig⟩ :=
    extractLoop_spec schema h corCols (List.replicate schema.length none) h
      (ExtractInv_initial schema h)
  have hnone : ∀ (i : Nat) (b : CorrelatedColumn),
      (List.replicate schema.length (none : Option CorrelatedColumn))[i]? ≠ some (some b) := by
    intro i b hb
    rw [List.getElem?_replicate] at hb
    split at hb <;> simp at hb
  have horig2 : ∀ (i : Nat) (b : CorrelatedColumn), res[i]? = some (some b) →
      ∃ p ∈ corCols, resolvedIndex schema h p = (i : Int) := by
    intro i b hb
    rcases horig i b hb with h1 | h1
    · exact absurd h1 (hnone i b)
    · exact h1
  have hret : ∀ (k : Nat) (b : CorrelatedColumn), res[k]? = some (some b) →
      some b ∈ shrinkLoop res.length 0 0 res := by
    apply shrinkLoop_keeps res res.length 0 0 res (Nat.le_refl _) (by omega) (fun _ _ => rfl)
    intro k b hk
    omega
  have htoNat : ∀ (p i : Nat), resolvedIndex schema h p = (i : Int) →
      (resolvedIndex schema h p).toNat = i := by
    intro p i hi
    rw [hi, Int.toNat_ofNat]
  have hnonneg : ∀ p, resolvedIndex schema h p ≠ -1 →
      ∃ i : Nat, resolvedIndex schema h p = (i : Int) := by
    intro p hp
    rcases GetColumnIndexFrom_range (h.cor p).Column schema 0 with h1 | ⟨k, _, h1⟩
    · exact absurd h1 hp
    · exact ⟨0 + k, h1⟩
  refine ⟨res, shrinkLoop res.length 0 0 res, h2, hloop, ?_, ?_, ?_, ?_, hinv.keep, horig2, ?_⟩
  · simp only [extractCorColumnsBySchema, hloop]
  · intro p hp i hi
    obtain ⟨b, hb, hd⟩ := hmatch p hp (by rw [hi]; omega)
    rw [htoNat p i hi] at hb
    exact ⟨b, hb, hret i b hb, (hinv.bind i b hb).1, hd⟩
  · intro p hp q hq hpi hpq
    obtain ⟨b1, hb1, hd1⟩ := hmatch p hp hpi
    obtain ⟨b2, hb2, hd2⟩ := hmatch q hq (by rw [← hpq]; exact hpi)
    rw [← hpq, hb1] at hb2
    simp only [Option.some.injEq] at hb2
    rw [hd1, hd2, hb2]
  · intro p hp q hq hpi hqi hne
    obtain ⟨b1, hb1, hd1⟩ := hmatch p hp hpi
    obtain ⟨b2, hb2, hd2⟩ := hmatch q hq hqi
    obtain ⟨i, hi⟩ := hnonneg p hpi
    obtain ⟨k, hk⟩ := hnonneg q hqi
    rw [htoNat p i hi] at hb1
    rw [htoNat q k hk] at hb2
    rw [hd1, hd2]
    apply hinv.distinct i k b1 b2 hb1 hb2
    intro hik
    apply hne
    rw [hi, hk, hik]
  · intro b hb
    have hmem := shrinkLoop_subset res.length 0 0 res (some b) hb
    obtain ⟨i, hi⟩ := List.mem_iff_getElem?.1 hmem
    exact ⟨i, hi, horig2 i b hi⟩

/-- C18 on the outer schema `[t1.a, t1.b]` and the references at addresses 0 and 1 (both
`t1.b`), 2 (`t1.a`) and 3 (`t9.z`, not an outer column): afterwards 0 and 1 hold the same
slot, 2 holds another one and 3 is as it was. -/
theorem extractCorColumnsBySchema_slot_sharing_witness :
    ∃ ret h2,
      extractCorColumnsBySchema [mkCol "t1" 0 "a", mkCol "t1" 1 "b"] [0, 1, 2, 3] heapMixed
        = some (ret, h2)
      ∧ (h2.cor 0).Data = (h2.cor 1).Data
      ∧ (h2.cor 0).Data ≠ (h2.cor 2).Data
      ∧ h2.cor 3 = heapMixed.cor 3 := by
  obtain ⟨res, ret, h2, _, hret, _, hsame, hdiff, hkeep, _⟩ :=
    extractCorColumnsBySchema_slot_sharing [mkCol "t1" 0 "a", mkCol "t1" 1 "b"] [0, 1, 2, 3]
      heapMixed
  exact ⟨ret, h2, hret,
    hsame 0 (by simp) 1 (by simp) (by decide) (by decide),
    hdiff 0 (by simp) 2 (by simp) (by decide) (by decide) (by decide),
    hkeep 3 (by decide)⟩

end Tidb
